import Mathlib

/-!
# PathwayDB — shallow embedding and verification of spec claims

This file embeds the core of PathwayDB (a property-graph database over an
ordered key-value store) in Lean 4 and settles the frozen claims about it.

Modelling conventions, chosen once and used throughout:

* The ordered KV substrate (Badger) is a sorted association list
  `Store = List (String × Entry)`; keys are the exact strings the Go code
  builds (`utils/encoding.go`), values are a sum `Val` abstracting the JSON
  blobs (a record round-trips through JSON unchanged, so `Val.node n`
  stands for `n`'s JSON).  An `Entry` also carries the Badger-level TTL
  deadline passed to `SetEntry(..).WithTTL` (`none` = no KV-level TTL).
* `time.Time` values are represented by their RFC3339-UTC strings; for such
  strings Go's `time.Before` agrees with lexicographic string comparison,
  which is exactly the property the expiry index relies on.
* Go functions returning `(T, error)` become `Except String T`; a function
  whose only failure is impossible in the model still returns `Except` when
  the claims talk about its error behaviour.
* Iteration with a key prefix walks the sorted store, matching Badger's
  ascending prefix iteration.
-/

namespace PathwayDB

/-- models.Node.  `attrs` abstracts the Attributes map together with the
timestamps (an opaque JSON blob — no claim inspects them); `expiresAt` is
the optional RFC3339-UTC expiry. -/
structure NodeRec where
  id : String
  type : String
  attrs : String := ""
  expiresAt : Option String := none
deriving DecidableEq, Repr

/-- models.Edge, abstracted the same way as `NodeRec`. -/
structure EdgeRec where
  id : String
  type : String
  fromId : String
  toId : String
  attrs : String := ""
  expiresAt : Option String := none
deriving DecidableEq, Repr

/-- A stored value: the JSON of a node, of an edge, or a plain string
(index entries hold the entity ID; graph records hold their JSON). -/
inductive Val where
  | node : NodeRec → Val
  | edge : EdgeRec → Val
  | str : String → Val
deriving DecidableEq, Repr

/-- One KV entry: value plus the Badger `WithTTL` deadline, if any. -/
structure Entry where
  val : Val
  ttl : Option String := none
deriving DecidableEq, Repr

/-- The ordered KV store: association list kept sorted by key (ascending,
Badger's iteration order), with unique keys. -/
abbrev Store := List (String × Entry)

deriving instance DecidableEq for Except

/-- Lexicographic string comparison on the character lists; this is
definitionally Lean's `String.lt`, and for the ASCII keys and RFC3339
timestamps handled here it coincides with Go's byte-wise `<`.  (Stated on
`data` so that it evaluates by `decide`.) -/
def strLt (a b : String) : Bool := decide (a.data < b.data)

/-- Insert or replace a key, keeping the list sorted by key. -/
def kvSet (s : Store) (k : String) (v : Val) (ttl : Option String := none) : Store :=
  match s with
  | [] => [(k, ⟨v, ttl⟩)]
  | (k', e') :: rest =>
    if k = k' then (k, ⟨v, ttl⟩) :: rest
    else if strLt k k' then (k, ⟨v, ttl⟩) :: (k', e') :: rest
    else (k', e') :: kvSet rest k v ttl

/-- Delete a key (no-op when absent; Badger `Delete` does not fail). -/
def kvDelete (s : Store) (k : String) : Store :=
  s.filter (fun kv => kv.1 ≠ k)

/-- Point lookup. -/
def kvGet (s : Store) (k : String) : Option Val :=
  match s.find? (fun kv => kv.1 = k) with
  | some kv => some kv.2.val
  | none => none

/-- Point lookup returning the full entry (value and KV-level TTL). -/
def kvGetEntry (s : Store) (k : String) : Option Entry :=
  match s.find? (fun kv => kv.1 = k) with
  | some kv => some kv.2
  | none => none

/-- String prefix test, on the underlying character lists (the keys here
are handled as character sequences; for the ASCII keys the schema builds
this agrees with Go's byte-level `HasPrefix`). -/
def strHasPref (p s : String) : Bool := p.data.isPrefixOf s.data

/-- All entries whose key starts with `p`, in store (= key) order: Badger's
`Seek(p); ValidForPrefix(p); Next()` loop over a sorted store. -/
def kvEntriesUnder (s : Store) (p : String) : List (String × Entry) :=
  s.filter (fun kv => strHasPref p kv.1)

/-! ## Key schema (utils/encoding.go) -/

def graphPref : String := "g:"
def nodePref : String := "n:"
def edgePref : String := "e:"
def nodeIndexPref : String := "ni:"
def typeIndexPref : String := "ti:"
def expiryIndexPref : String := "xi:"

/-- EncodeGraphKey. -/
def encodeGraphKey (g : String) : String := graphPref ++ g

/-- EncodeNodeKey: `n:<graphID>:<nodeID>`. -/
def encodeNodeKey (g n : String) : String := nodePref ++ g ++ ":" ++ n

/-- EncodeEdgeKey: `e:<graphID>:<edgeID>`. -/
def encodeEdgeKey (g e : String) : String := edgePref ++ g ++ ":" ++ e

/-- EncodeNodeTypeIndexKey: `ti:n:<graphID>:<nodeType>:<nodeID>`. -/
def encodeNodeTypeIndexKey (g t n : String) : String :=
  typeIndexPref ++ "n:" ++ g ++ ":" ++ t ++ ":" ++ n

/-- EncodeEdgeTypeIndexKey: `ti:e:<graphID>:<edgeType>:<edgeID>`. -/
def encodeEdgeTypeIndexKey (g t e : String) : String :=
  typeIndexPref ++ "e:" ++ g ++ ":" ++ t ++ ":" ++ e

/-- EncodeNodeOutEdgeIndexKey: `ni:out:<graphID>:<nodeID>:<edgeID>`. -/
def encodeNodeOutEdgeIndexKey (g n e : String) : String :=
  nodeIndexPref ++ "out:" ++ g ++ ":" ++ n ++ ":" ++ e

/-- EncodeNodeInEdgeIndexKey: `ni:in:<graphID>:<nodeID>:<edgeID>`. -/
def encodeNodeInEdgeIndexKey (g n e : String) : String :=
  nodeIndexPref ++ "in:" ++ g ++ ":" ++ n ++ ":" ++ e

/-- EncodeExpiryIndexKey: `xi:<RFC3339-UTC>:<graphID>:<nodeID>` (the Go code
formats `expiresAt.UTC()`; here the time is already its RFC3339 string). -/
def encodeExpiryIndexKey (g n ts : String) : String :=
  expiryIndexPref ++ ts ++ ":" ++ g ++ ":" ++ n

/-- CreateNodeIteratorPrefix: `n:<graphID>:`. -/
def createNodeIterPref (g : String) : String := nodePref ++ g ++ ":"

/-- CreateEdgeIteratorPrefix: `e:<graphID>:`. -/
def createEdgeIterPref (g : String) : String := edgePref ++ g ++ ":"

/-- CreateTypeIteratorPrefix: `ti:<entityType>:<graphID>:<typeValue>:`. -/
def createTypeIterPref (g et tv : String) : String :=
  typeIndexPref ++ et ++ ":" ++ g ++ ":" ++ tv ++ ":"

/-- CreateExpiryIteratorPrefix: `xi:`. -/
def createExpiryIterPref : String := expiryIndexPref

/-- The outgoing-adjacency iteration key `ni:out:<graphID>:<nodeID>:`. -/
def outPref (g n : String) : String :=
  nodeIndexPref ++ "out:" ++ g ++ ":" ++ n ++ ":"

/-- The incoming-adjacency iteration key `ni:in:<graphID>:<nodeID>:`. -/
def inPref (g n : String) : String :=
  nodeIndexPref ++ "in:" ++ g ++ ":" ++ n ++ ":"

/-- Helper of `splitOnColon`: accumulate the current field (reversed). -/
def splitColonAux : List Char → List Char → List String
  | [], acc => [⟨acc.reverse⟩]
  | c :: rest, acc =>
    if c = ':' then ⟨acc.reverse⟩ :: splitColonAux rest []
    else splitColonAux rest (c :: acc)

/-- strings.Split(s, ":"): every field between colons (Go's Split with a
single-character separator). -/
def splitOnColon (s : String) : List String := splitColonAux s.data []

/-- strings.TrimPrefix. -/
def strTrimPref (p s : String) : String :=
  if strHasPref p s then ⟨s.data.drop p.length⟩ else s

/-- Index (in characters; the keys are handled as character sequences) of
the last `:` in a string — strings.LastIndex(s, ":"). -/
def lastColonIdx (s : String) : Option Nat :=
  (List.range s.length).reverse.find? (fun i => s.data.getD i ' ' = ':')

/-- DecodeExpiryIndexKey: strip `xi:`, split at the last and second-to-last
colons to recover `(graphID, nodeID)`. -/
def decodeExpiryIndexKey (key : String) : String × String :=
  let keyStr := strTrimPref expiryIndexPref key
  match lastColonIdx keyStr with
  | none => ("", "")
  | some i =>
    let nodeID : String := ⟨keyStr.data.drop (i + 1)⟩
    let remaining : String := ⟨keyStr.data.take i⟩
    match lastColonIdx remaining with
    | none => ("", "")
    | some j => (⟨remaining.data.drop (j + 1)⟩, nodeID)

/-- DecodeNodeKey: strip `n:`, split on `:`; exactly two parts required. -/
def decodeNodeKey (key : String) : String × String :=
  if strHasPref nodePref key then
    match splitOnColon (strTrimPref nodePref key) with
    | [g, n] => (g, n)
    | _ => ("", "")
  else ("", "")

/-- DecodeEdgeKey: strip `e:`, split on `:`; exactly two parts required. -/
def decodeEdgeKey (key : String) : String × String :=
  if strHasPref edgePref key then
    match splitOnColon (strTrimPref edgePref key) with
    | [g, e] => (g, e)
    | _ => ("", "")
  else ("", "")

/-! ## Storage engine: node and edge operations

Transaction-level functions mutate the store by explicit state passing.
A Go method that can only fail before its first write is `Except String
Store` (an error implies the store argument is untouched); `DeleteNode`,
which can fail halfway through its cascade inside a shared transaction,
returns the partially-mutated store alongside the error. -/

/-- BadgerTransaction.GetNode (error messages as in the source). -/
def getNodeSE (s : Store) (g n : String) : Except String NodeRec :=
  match kvGet s (encodeNodeKey g n) with
  | some (.node nd) => .ok nd
  | some _ => .error "failed to deserialize node"
  | none => .error ("node not found: " ++ n)

/-- GetNode as an option (used where only success matters). -/
def getNodeS (s : Store) (g n : String) : Option NodeRec :=
  (getNodeSE s g n).toOption

/-- BadgerTransaction.GetEdge. -/
def getEdgeSE (s : Store) (g e : String) : Except String EdgeRec :=
  match kvGet s (encodeEdgeKey g e) with
  | some (.edge ed) => .ok ed
  | some _ => .error "failed to deserialize edge"
  | none => .error ("edge not found: " ++ e)

/-- GetEdge as an option. -/
def getEdgeS (s : Store) (g e : String) : Option EdgeRec :=
  (getEdgeSE s g e).toOption

/-- BadgerTransaction.CreateNode: store the record, the type-index entry,
and (if `ExpiresAt` is set) the expiry-index entry.  No existence check:
creating an existing ID overwrites the record.  Node records are written
without a KV-level TTL (nodes expire via the sweeper, not Badger TTL). -/
def createNodeTx (s : Store) (g : String) (nd : NodeRec) : Except String Store :=
  let s1 := kvSet s (encodeNodeKey g nd.id) (.node nd)
  let s2 := kvSet s1 (encodeNodeTypeIndexKey g nd.type nd.id) (.str nd.id)
  match nd.expiresAt with
  | some t => .ok (kvSet s2 (encodeExpiryIndexKey g nd.id t) (.str nd.id))
  | none => .ok s2

/-- BadgerTransaction.UpdateNode: fetch the existing node (error when
missing); on type change delete the old type-index key and write the new
one; rewrite the expiry-index per the two conditionals in the source;
finally overwrite the record. -/
def updateNodeTx (s : Store) (g : String) (nd : NodeRec) : Except String Store :=
  match getNodeSE s g nd.id with
  | .error m => .error ("node does not exist: " ++ m)
  | .ok existing =>
    let s1 :=
      if existing.type ≠ nd.type then
        kvSet (kvDelete s (encodeNodeTypeIndexKey g existing.type nd.id))
          (encodeNodeTypeIndexKey g nd.type nd.id) (.str nd.id)
      else s
    let s2 :=
      if (existing.expiresAt.isSome ∧ nd.expiresAt = none) ∨
          (existing.expiresAt.isSome ∧ nd.expiresAt.isSome ∧
            existing.expiresAt ≠ nd.expiresAt) then
        kvDelete s1 (encodeExpiryIndexKey g existing.id (existing.expiresAt.getD ""))
      else s1
    let s3 :=
      if (nd.expiresAt.isSome ∧ existing.expiresAt = none) ∨
          (nd.expiresAt.isSome ∧ existing.expiresAt.isSome ∧
            nd.expiresAt ≠ existing.expiresAt) then
        kvSet s2 (encodeExpiryIndexKey g nd.id (nd.expiresAt.getD "")) (.str nd.id)
      else s2
    .ok (kvSet s3 (encodeNodeKey g nd.id) (.node nd))

/-- BadgerTransaction.CreateEdge: verify both endpoints exist (referential
integrity); store the edge record — with a Badger TTL when `ExpiresAt` is
set and still in the future, silently storing nothing when it is already
past — then the type index and both adjacency indexes, all without TTL.
`now < t` is Go's `time.Until(t) > 0` on RFC3339-UTC strings. -/
def createEdgeTx (s : Store) (now g : String) (e : EdgeRec) : Except String Store :=
  match getNodeSE s g e.fromId with
  | .error m => .error ("source node does not exist: " ++ m)
  | .ok _ =>
  match getNodeSE s g e.toId with
  | .error m => .error ("target node does not exist: " ++ m)
  | .ok _ =>
    match e.expiresAt with
    | some t =>
      if strLt now t then
        let s1 := kvSet s (encodeEdgeKey g e.id) (.edge e) (some t)
        let s2 := kvSet s1 (encodeEdgeTypeIndexKey g e.type e.id) (.str e.id)
        let s3 := kvSet s2 (encodeNodeOutEdgeIndexKey g e.fromId e.id) (.str e.id)
        .ok (kvSet s3 (encodeNodeInEdgeIndexKey g e.toId e.id) (.str e.id))
      else
        .ok s
    | none =>
      let s1 := kvSet s (encodeEdgeKey g e.id) (.edge e)
      let s2 := kvSet s1 (encodeEdgeTypeIndexKey g e.type e.id) (.str e.id)
      let s3 := kvSet s2 (encodeNodeOutEdgeIndexKey g e.fromId e.id) (.str e.id)
      .ok (kvSet s3 (encodeNodeInEdgeIndexKey g e.toId e.id) (.str e.id))

/-- BadgerTransaction.DeleteEdge: fetch (error when missing), then delete
record, type index, and both adjacency indexes.  All failure happens
before the first write. -/
def deleteEdgeTx (s : Store) (g eid : String) : Except String Store :=
  match getEdgeSE s g eid with
  | .error m => .error ("edge does not exist: " ++ m)
  | .ok e =>
    let s1 := kvDelete s (encodeEdgeKey g eid)
    let s2 := kvDelete s1 (encodeEdgeTypeIndexKey g e.type eid)
    let s3 := kvDelete s2 (encodeNodeOutEdgeIndexKey g e.fromId eid)
    .ok (kvDelete s3 (encodeNodeInEdgeIndexKey g e.toId eid))

/-- The edge-ID string stored as an index value (Go reads the raw value
bytes; index values are always the entity-ID string). -/
def valStr : Val → String
  | .str x => x
  | _ => ""

/-- Delete the edges named by a list of IDs, stopping at the first error
(the cascade loops in DeleteNode return the error immediately); on error
the store reflects the work done so far — there is no sub-rollback inside
the shared transaction. -/
def foldDeleteEdges (s : Store) (g : String) : List String → Option String × Store
  | [] => (none, s)
  | eid :: rest =>
    match deleteEdgeTx s g eid with
    | .error m => (some m, s)
    | .ok s' => foldDeleteEdges s' g rest

/-- BadgerTransaction.DeleteNode: fetch the node (error when missing),
delete record / type index / expiry index (the expiry delete is
warn-only and total here), then cascade over the `ni:out:` and `ni:in:`
prefixes, deleting each referenced edge.  Each prefix scan sees the
store as of its start (Badger iterators snapshot pending writes at
creation, and the out-scan runs to completion before the in-scan is
created). -/
def deleteNodeTxP (s : Store) (g n : String) : Option String × Store :=
  match getNodeSE s g n with
  | .error m => (some ("node does not exist: " ++ m), s)
  | .ok node =>
    let s1 := kvDelete s (encodeNodeKey g n)
    let s2 := kvDelete s1 (encodeNodeTypeIndexKey g node.type n)
    let s3 :=
      match node.expiresAt with
      | some t => kvDelete s2 (encodeExpiryIndexKey g node.id t)
      | none => s2
    let outs := kvEntriesUnder s3 (outPref g n)
    match foldDeleteEdges s3 g (outs.map (fun kv => valStr kv.2.val)) with
    | (some m, s') => (some m, s')
    | (none, s') =>
      let ins := kvEntriesUnder s' (inPref g n)
      foldDeleteEdges s' g (ins.map (fun kv => valStr kv.2.val))

/-- Engine-level DeleteNode: one `db.Update` transaction; an error rolls
everything back. -/
def engineDeleteNode (s : Store) (g n : String) : Store :=
  match deleteNodeTxP s g n with
  | (none, s') => s'
  | (some _, _) => s

/-- Engine-level CreateEdge: one `db.Update`; on error the original store
is kept (rollback). -/
def engineCreateEdge (s : Store) (now g : String) (e : EdgeRec) :
    Except String Unit × Store :=
  match createEdgeTx s now g e with
  | .ok s' => (.ok (), s')
  | .error m => (.error m, s)

/-- BadgerEngine.DeleteGraph: delete every node under the graph's node
prefix (best-effort: a failing node deletion keeps the partial work and
continues), then every remaining edge under the edge prefix, then the
graph record. -/
def deleteGraph (s : Store) (g : String) : Except String Store :=
  let nodeKeys := (kvEntriesUnder s (createNodeIterPref g)).map (·.1)
  let s1 := nodeKeys.foldl
    (fun st k =>
      let n := (decodeNodeKey k).2
      if n ≠ "" then (deleteNodeTxP st g n).2 else st) s
  let edgeKeys := (kvEntriesUnder s1 (createEdgeIterPref g)).map (·.1)
  let s2 := edgeKeys.foldl
    (fun st k =>
      let e := (decodeEdgeKey k).2
      if e ≠ "" then
        match deleteEdgeTx st g e with
        | .ok st' => st'
        | .error _ => st
      else st) s1
  .ok (kvDelete s2 (encodeGraphKey g))

/-- BadgerEngine.GetGraph, abstracted to record presence. -/
def getGraphSE (s : Store) (g : String) : Except String Unit :=
  match kvGet s (encodeGraphKey g) with
  | some _ => .ok ()
  | none => .error ("graph not found: " ++ g)

/-- BadgerEngine.GetOutgoingEdges: scan `ni:out:<g>:<n>:`; each value is an
edge ID; a failing `GetEdge` (deleted edge, dangling index) is silently
skipped — the iteration callback returns nil — so the call never fails. -/
def getOutgoingEdgesS (s : Store) (g n : String) : Except String (List EdgeRec) :=
  .ok ((kvEntriesUnder s (outPref g n)).foldl
    (fun acc kv =>
      match getEdgeS s g (valStr kv.2.val) with
      | some e => acc ++ [e]
      | none => acc) [])

/-- BadgerEngine.GetIncomingEdges, symmetric. -/
def getIncomingEdgesS (s : Store) (g n : String) : Except String (List EdgeRec) :=
  .ok ((kvEntriesUnder s (inPref g n)).foldl
    (fun acc kv =>
      match getEdgeS s g (valStr kv.2.val) with
      | some e => acc ++ [e]
      | none => acc) [])

/-- BadgerEngine.ListEdgesByType: scan the edge-type prefix; the value (not
the key) is the edge ID; dangling entries are skipped. -/
def listEdgesByTypeS (s : Store) (g t : String) : Except String (List EdgeRec) :=
  .ok ((kvEntriesUnder s (createTypeIterPref g "e" t)).foldl
    (fun acc kv =>
      match getEdgeS s g (valStr kv.2.val) with
      | some e => acc ++ [e]
      | none => acc) [])

/-- BadgerEngine.ListNodes: scan the node prefix, deserializing each value;
a value that is not a node record aborts with an error. -/
def listNodesS (s : Store) (g : String) : Except String (List NodeRec) :=
  (kvEntriesUnder s (createNodeIterPref g)).foldlM
    (fun acc kv =>
      match kv.2.val with
      | .node nd => .ok (acc ++ [nd])
      | _ => .error "failed to deserialize node")
    ([] : List NodeRec)

/-! ## TTL manager (storage/ttl.go) -/

/-- Phase 1 of cleanupExpiredNodes: iterate the `xi:` prefix in key order;
split each key on `:`; if the second field compares greater than `now`,
stop; otherwise collect the key.  (Because RFC3339 timestamps themselves
contain `:`, `parts[1]` is the timestamp truncated at its first colon —
the date and hour only.) -/
def collectExpiredAux (now : String) : List String → List String
  | [] => []
  | k :: rest =>
    let parts := splitOnColon k
    if parts.length ≥ 2 ∧ strLt now (parts.getD 1 "") = true then []
    else k :: collectExpiredAux now rest

/-- Keys collected by one sweep at time `now`. -/
def collectExpiredKeys (s : Store) (now : String) : List String :=
  collectExpiredAux now ((kvEntriesUnder s createExpiryIterPref).map (·.1))

/-- cleanupExpiredNodes: collect keys (read-only), then delete each node in
its own engine transaction, ignoring (logging) failures. -/
def cleanupExpiredNodes (s : Store) (now : String) : Store :=
  (collectExpiredKeys s now).foldl
    (fun st k =>
      let gn := decodeExpiryIndexKey k
      if gn.1 ≠ "" ∧ gn.2 ≠ "" then engineDeleteNode st gn.1 gn.2 else st) s

/-! ## Analysis engine (analysis package)

The analyzer reads through the `storage.StorageEngine` interface; the view
below is that interface restricted to the methods the algorithms use.
`GetNode`'s failure becomes `none`; `GetOutgoingEdges` / `GetIncomingEdges`
never fail (proved below for the store-backed implementation), so they are
plain lists here. -/

structure StorageView where
  getNode : String → Option NodeRec
  outgoing : String → List EdgeRec
  incoming : String → List EdgeRec
  nodesList : List NodeRec

/-- types.TraversalDirection. -/
inductive Dir where
  | forward | backward | both
deriving DecidableEq, Repr

/-- types.TraversalOptions. -/
structure TraversalOptions where
  maxDepth : Int := -1
  edgeTypes : List String := []
  nodeTypes : List String := []
  direction : Dir := .forward
  stopCondition : Option (NodeRec → Bool) := none

/-- Edge-type filtering: keep edges whose type matches one of the listed
types; an empty list admits everything. -/
def filterEdgesByTypes (ets : List String) (es : List EdgeRec) : List EdgeRec :=
  if ets.isEmpty then es else es.filter (fun e => ets.contains e.type)

/-- The `switch options.Direction` fetching connected edges. -/
def connectedOf (v : StorageView) (dir : Dir) (n : String) : List EdgeRec :=
  match dir with
  | .forward => v.outgoing n
  | .backward => v.incoming n
  | .both => v.outgoing n ++ v.incoming n

/-- The `switch options.Direction` computing the next node of an edge; the
Go zero value `""` means "no next node". -/
def nextNodeOf (dir : Dir) (n : String) (e : EdgeRec) : String :=
  match dir with
  | .forward => if e.fromId = n then e.toId else ""
  | .backward => if e.toId = n then e.fromId else ""
  | .both =>
    if e.fromId = n then e.toId
    else if e.toId = n then e.fromId
    else ""

/-- types.TraversalResult. -/
structure TraversalResult where
  nodes : List NodeRec
  edges : List EdgeRec
  path : List String
  distance : Int
deriving DecidableEq, Repr

/-- The Go stop-predicate check `options.StopCondition != nil &&
options.StopCondition(node)`. -/
def stopHolds (opts : TraversalOptions) (nd : NodeRec) : Bool :=
  match opts.stopCondition with
  | some p => p nd
  | none => false

/-- The node-type filter check of DepthFirstSearch. -/
def nodeTypeMatches (opts : TraversalOptions) (nd : NodeRec) : Bool :=
  opts.nodeTypes.isEmpty || opts.nodeTypes.contains nd.type

/-- The push loop of DepthFirstSearch: walk the connected edges in reverse
order; for each edge with a next node that is non-empty and unvisited,
record the edge and push `(next, depth+1)`.  The Go stack keeps its top at
the slice's end; here the list head is the top, so Go's push is `::`. -/
def dfsPushStep (dir : Dir) (cur : String) (depth : Int) (visited : List String)
    (acc : List (String × Int) × List EdgeRec) (e : EdgeRec) :
    List (String × Int) × List EdgeRec :=
  let nxt := nextNodeOf dir cur e
  if nxt ≠ "" ∧ visited.contains nxt = false then
    ((nxt, depth + 1) :: acc.1, acc.2 ++ [e])
  else acc

def dfsPush (dir : Dir) (cur : String) (depth : Int) (visited : List String)
    (ces : List EdgeRec) (stack : List (String × Int)) (edges : List EdgeRec) :
    List (String × Int) × List EdgeRec :=
  ces.reverse.foldl (dfsPushStep dir cur depth visited) (stack, edges)

/-- The main loop of DepthFirstSearch (iterative, stack-based).  The Go
loop always terminates — every iteration either discards the popped item
or marks a new node visited — so the fuel is an artifact of the
embedding; theorems are stated on successful runs. -/
def dfsLoop (v : StorageView) (opts : TraversalOptions) :
    Nat → List (String × Int) → List String → List NodeRec → List EdgeRec →
    List String → Except String TraversalResult
  | 0, _, _, _, _, _ => .error "fuel exhausted"
  | _ + 1, [], _, nodes, edges, path =>
    .ok ⟨nodes, edges, path, (path.length : Int) - 1⟩
  | fuel + 1, (cur, depth) :: stack, visited, nodes, edges, path =>
    if visited.contains cur then dfsLoop v opts fuel stack visited nodes edges path
    else if opts.maxDepth ≥ 0 ∧ depth > opts.maxDepth then
      dfsLoop v opts fuel stack visited nodes edges path
    else
      let visited' := visited ++ [cur]
      match v.getNode cur with
      | none => .error ("failed to get node " ++ cur)
      | some node =>
        if stopHolds opts node then
          dfsLoop v opts fuel stack visited' nodes edges path
        else
          let nodes' := if nodeTypeMatches opts node then nodes ++ [node] else nodes
          let path' := if nodeTypeMatches opts node then path ++ [cur] else path
          let ces := filterEdgesByTypes opts.edgeTypes (connectedOf v opts.direction cur)
          let se := dfsPush opts.direction cur depth visited' ces stack edges
          dfsLoop v opts fuel se.1 visited' nodes' se.2 path'

/-- GraphAnalyzer.DepthFirstSearch: nil options default to unbounded
forward traversal. -/
def depthFirstSearch (v : StorageView) (start : String)
    (optsIn : Option TraversalOptions) (fuel : Nat) : Except String TraversalResult :=
  let opts := optsIn.getD { maxDepth := -1, direction := .forward }
  dfsLoop v opts fuel [(start, 0)] [] [] [] []

/-! ## Shortest paths (GraphAnalyzer.GetShortestPath / AllShortestPaths) -/

/-- types.PathResult. -/
structure PathRes where
  fromId : String
  toId : String
  path : List String
  length : Int
  edges : List String
deriving DecidableEq, Repr

/-- Go map read (zero value handled at use sites). -/
def assocGet (l : List (String × α)) (k : String) : Option α :=
  (l.find? (fun kv => kv.1 = k)).map (·.2)

/-- Go map write. -/
def assocPut (l : List (String × α)) (k : String) (v : α) : List (String × α) :=
  if (l.find? (fun kv => kv.1 = k)).isSome then
    l.map (fun kv => if kv.1 = k then (k, v) else kv)
  else l ++ [(k, v)]

/-- The BFS loop of GetShortestPath: FIFO queue of `(node, depth)`;
`found` on dequeueing the target; neighbours recorded in `parent` and
`edgeMap` when first seen.  No edge-type filter is applied here. -/
def gspLoop (v : StorageView) (opts : TraversalOptions) (toId : String) :
    Nat → List (String × Int) → List String → List (String × String) →
    List (String × String) →
    Except String (Bool × List (String × String) × List (String × String))
  | 0, _, _, _, _ => .error "fuel exhausted"
  | _ + 1, [], _, parent, edgeMap => .ok (false, parent, edgeMap)
  | fuel + 1, (cur, depth) :: queue, visited, parent, edgeMap =>
    if cur = toId then .ok (true, parent, edgeMap)
    else
      let ces := connectedOf v opts.direction cur
      let st := ces.foldl
        (fun (acc : List (String × Int) × List String ×
            List (String × String) × List (String × String)) e =>
          let nxt := nextNodeOf opts.direction cur e
          if nxt ≠ "" ∧ acc.2.1.contains nxt = false then
            (acc.1 ++ [(nxt, depth + 1)], acc.2.1 ++ [nxt],
              assocPut acc.2.2.1 nxt cur, assocPut acc.2.2.2 nxt e.id)
          else acc)
        (queue, visited, parent, edgeMap)
      gspLoop v opts toId fuel st.1 st.2.1 st.2.2.1 st.2.2.2

/-- Path reconstruction of GetShortestPath: walk `parent` from the target
back to the source, prepending nodes and edge IDs. -/
def gspBuild (fromId : String) :
    Nat → String → List String → List String → List (String × String) →
    List (String × String) → Except String (List String × List String)
  | 0, _, _, _, _, _ => .error "fuel exhausted"
  | fuel + 1, cur, path, edges, parent, edgeMap =>
    if cur = fromId then .ok (fromId :: path, edges)
    else
      let path' := cur :: path
      let edges' :=
        match assocGet edgeMap cur with
        | some eid => eid :: edges
        | none => edges
      gspBuild fromId fuel ((assocGet parent cur).getD "") path' edges' parent edgeMap

/-- GraphAnalyzer.GetShortestPath (single-source single-target BFS). -/
def getShortestPath (v : StorageView) (fromId toId : String)
    (optsIn : Option TraversalOptions) (fuel : Nat) : Except String PathRes :=
  let opts := optsIn.getD { direction := .forward }
  match gspLoop v opts toId fuel [(fromId, 0)] [fromId] [] [] with
  | .error m => .error m
  | .ok (false, _, _) => .error ("no path found from " ++ fromId ++ " to " ++ toId)
  | .ok (true, parent, edgeMap) =>
    match gspBuild fromId fuel toId [] [] parent edgeMap with
    | .error m => .error m
    | .ok pe => .ok ⟨fromId, toId, pe.1, (pe.1.length : Int) - 1, pe.2⟩

/-! ### Go slices, faithfully

AllShortestPaths enqueues `append(current.path, next)` and
`append(current.edges, edge)` without copying.  Go's `append` writes in
place when the slice has spare capacity, so queue items can share (and
mutate) one backing array.  The model below reproduces this: a heap of
backing arrays, slices as (array, length, capacity) views, and `append`
growing by capacity doubling (the Go runtime doubles capacities below 256;
with the 16-byte string / 8-byte pointer elements used here the size-class
round-up is exact, so the capacity is exactly doubled). -/

structure GSlice where
  arr : Nat
  len : Nat
  cap : Nat
deriving DecidableEq, Repr

abbrev GHeap (α : Type) := List (List α)

def heapArr (h : GHeap α) (i : Nat) : List α := h.getD i []

/-- The elements a slice views: the first `len` cells of its array. -/
def heapRead (h : GHeap α) (s : GSlice) : List α := (heapArr h s.arr).take s.len

def growCap (c : Nat) : Nat := if c = 0 then 1 else 2 * c

/-- Go `append(s, x)`: in place when `len < cap`, else allocate a fresh
array of doubled capacity and copy. -/
def goAppend (dflt : α) (h : GHeap α) (s : GSlice) (x : α) : GHeap α × GSlice :=
  if s.len < s.cap then
    (h.set s.arr ((heapArr h s.arr).set s.len x), ⟨s.arr, s.len + 1, s.cap⟩)
  else
    let ncap := growCap s.cap
    let content := (heapArr h s.arr).take s.len ++ [x]
    (h ++ [content ++ List.replicate (ncap - content.length) dflt],
      ⟨h.length, s.len + 1, ncap⟩)

def nodeDflt : NodeRec := { id := "", type := "" }
def edgeDflt : EdgeRec := { id := "", type := "", fromId := "", toId := "" }

/-- A queue item of AllShortestPaths: target node, the path and edge
slices (shared backing arrays!), and the distance. -/
structure ASPItem where
  nodeID : String
  path : GSlice
  edges : GSlice
  dist : Nat
deriving Repr

/-- The loop of AllShortestPaths: FIFO over path-carrying items; stop when
a dequeued item exceeds the first distance at which the target was
reached; prune items that reach a node later than its recorded distance;
expand along outgoing edges, skipping nodes already on the current path. -/
def aspLoop (v : StorageView) (fromId toId : String) :
    Nat → List ASPItem → List (String × Nat) → GHeap String → GHeap EdgeRec →
    Option Nat → List PathRes → List PathRes
  | 0, _, _, _, _, _, acc => acc
  | _ + 1, [], _, _, _, _, acc => acc
  | fuel + 1, cur :: queue, visited, hp, he, minDist, acc =>
    if (match minDist with | some m => decide (m < cur.dist) | none => false) then acc
    else if cur.nodeID = toId then
      let m := minDist.getD cur.dist
      let acc' :=
        if cur.dist = m then
          acc ++ [⟨fromId, toId, heapRead hp cur.path, (cur.dist : Int),
            (heapRead he cur.edges).map (·.id)⟩]
        else acc
      aspLoop v fromId toId fuel queue visited hp he (some m) acc'
    else if (match assocGet visited cur.nodeID with
        | some prev => decide (prev < cur.dist)
        | none => false) then
      aspLoop v fromId toId fuel queue visited hp he minDist acc
    else
      let visited' := assocPut visited cur.nodeID cur.dist
      let st := (v.outgoing cur.nodeID).foldl
        (fun (acc2 : List ASPItem × GHeap String × GHeap EdgeRec) e =>
          let nxt := e.toId
          if (heapRead acc2.2.1 cur.path).contains nxt then acc2
          else
            let hn := goAppend "" acc2.2.1 cur.path nxt
            let en := goAppend edgeDflt acc2.2.2 cur.edges e
            (acc2.1 ++ [⟨nxt, hn.2, en.2, cur.dist + 1⟩], hn.1, en.1))
        (queue, hp, he)
      aspLoop v fromId toId fuel st.1 visited' st.2.1 st.2.2 minDist acc

/-- GraphAnalyzer.AllShortestPaths.  The initial item carries the literal
slices `[]NodeID{fromNodeID}` (len 1, cap 1) and `[]*Edge{}` (len 0,
cap 0). -/
def allShortestPaths (v : StorageView) (fromId toId : String) (fuel : Nat) :
    List PathRes :=
  aspLoop v fromId toId fuel [⟨fromId, ⟨0, 1, 1⟩, ⟨0, 0, 0⟩, 0⟩] []
    [[fromId]] [[]] none []

/-! ## Cycle enumeration (FindAllCycles / findCyclesRecursive / HasCycles) -/

/-- findCyclesRecursive: block the current node, then for each outgoing
edge passing the edge-type filter, emit `path ++ [start]` when the
neighbour is the start node, skip blocked neighbours, and recurse
otherwise.  The Go loop appends each edge's discoveries to an accumulator,
which is `flatMap` here; `defer` unblocks on return, so siblings all see
`blocked ∪ {current}` — the recursive call receives exactly that set.  The
recursion depth is bounded by the number of distinct unblocked nodes;
fuel is an artifact of the embedding. -/
def findCyclesRec (v : StorageView) (ets : List String) (start : String) :
    Nat → String → List String → List String → List (List String)
  | 0, _, _, _ => []
  | fuel + 1, current, path, blocked =>
    let blocked' := current :: blocked
    (filterEdgesByTypes ets (v.outgoing current)).flatMap
      (fun e =>
        let neighbor := e.toId
        if neighbor = start then [path ++ [start]]
        else if blocked'.contains neighbor then []
        else findCyclesRec v ets start fuel neighbor (path ++ [neighbor]) blocked')

/-- The cycles accumulated by FindAllCycles before deduplication: for each
node of the graph, run the recursive search from it.  Each discovered
cycle enters the accumulator twice — once through the `*allCycles` pointer
at discovery and once more when the returned list is appended — which the
deduplication erases. -/
def rawCycles (v : StorageView) (ets : List String) : List (List String) :=
  let fuel := v.nodesList.length + 1
  v.nodesList.flatMap (fun nd =>
    let cs := findCyclesRec v ets nd.id fuel nd.id [nd.id] []
    cs ++ cs)

/-- The index of the lexicographically smallest element (first occurrence),
as in normalizeCycle's scan. -/
def minIdx (l : List String) : Nat :=
  (List.range l.length).foldl
    (fun mi i => if strLt (l.getD i "") (l.getD mi "") then i else mi) 0

/-- normalizeCycle: drop the closing repeat, rotate the smallest node ID to
the front, re-append the (new) head. -/
def normalizeCycle (path : List String) : List String :=
  if path.length ≤ 1 then path
  else
    let cycleNodes := path.dropLast
    let mi := minIdx cycleNodes
    let rotated := cycleNodes.drop mi ++ cycleNodes.take mi
    rotated ++ [rotated.headD ""]

/-- cycleToString: join with `"->"`. -/
def cycleToString (path : List String) : String := String.intercalate "->" path

/-- The deduplication of FindAllCycles: a map keyed by
`cycleToString (normalizeCycle c)`, later writes overwriting earlier ones;
Go then iterates the map in unspecified order.  The model fixes the
deterministic ordering of first key appearance; each key carries its last
written value, so the value set is the same. -/
def dedupCycles (cs : List (List String)) : List (List String) :=
  let norm := cs.map normalizeCycle
  let keys := (norm.map cycleToString).eraseDups
  keys.map (fun k => (norm.filter (fun c => cycleToString c = k)).getLastD [])

/-- GraphAnalyzer.FindAllCycles. -/
def findAllCycles (v : StorageView) (ets : List String) : List (List String) :=
  dedupCycles (rawCycles v ets)

/-- GraphAnalyzer.HasCycles: `len(FindAllCycles(...)) > 0`. -/
def hasCycles (v : StorageView) (ets : List String) : Bool :=
  decide (0 < (findAllCycles v ets).length)

/-! ## Views from concrete data -/

/-- Insertion sort by a string key (the KV layout delivers nodes and
adjacency entries in ascending ID order). -/
def sortByKey (f : α → String) (l : List α) : List α :=
  List.insertionSort (fun a b => !strLt (f b) (f a)) l

/-- A view of an explicitly given node/edge set, with the iteration orders
the key schema induces. -/
def mkView (nodes : List NodeRec) (edges : List EdgeRec) : StorageView :=
  { getNode := fun n => nodes.find? (fun nd => nd.id = n)
    outgoing := fun n => sortByKey (·.id) (edges.filter (fun e => e.fromId = n))
    incoming := fun n => sortByKey (·.id) (edges.filter (fun e => e.toId = n))
    nodesList := sortByKey (·.id) nodes }

/-- The view the analyzer sees when backed by the Badger store. -/
def storeView (s : Store) (g : String) : StorageView :=
  { getNode := fun n => getNodeS s g n
    outgoing := fun n => (getOutgoingEdgesS s g n).toOption.getD []
    incoming := fun n => (getIncomingEdgesS s g n).toOption.getD []
    nodesList := (listNodesS s g).toOption.getD [] }

/-! ## Command dispatcher: ANALYSIS.SHORTESTPATH
(redis/commands/analysis.go) -/

/-- protocol.Response, restricted to the reply shapes this handler
produces. -/
inductive Resp where
  | arr (xs : List String)
  | nullResp
deriving DecidableEq, Repr

/-- findEdgeBetweenNodes: first outgoing edge of `fromN` reaching `toN`,
else first incoming edge of `toN` leaving `fromN`. -/
def findEdgeBetweenNodes (s : Store) (g fromN toN : String) : Except String EdgeRec :=
  let outs := (getOutgoingEdgesS s g fromN).toOption.getD []
  match outs.find? (fun e => e.toId = toN) with
  | some e => .ok e
  | none =>
    let ins := (getIncomingEdgesS s g toN).toOption.getD []
    match ins.find? (fun e => e.fromId = fromN) with
    | some e => .ok e
    | none => .error ("no edge found between nodes " ++ fromN ++ " and " ++ toN)

/-- buildArrow: `->` when the edge runs with the traversal, `<-` when
against it, `->` as the default. -/
def buildArrow (fromN toN : String) (e : EdgeRec) : String :=
  if e.fromId = fromN ∧ e.toId = toN then "->"
  else if e.toId = fromN ∧ e.fromId = toN then "<-"
  else "->"

/-- The `FORMAT` scan of handleShortestPath over the arguments after the
three positional ones; unknown words are skipped (the optional algorithm
argument), and a trailing `FORMAT` with no value is ignored. -/
def parseSPFormat : List String → String → Except String String
  | [], fmt => .ok fmt
  | a :: rest, fmt =>
    if a = "FORMAT" then
      match rest with
      | b :: rest2 =>
        if b ≠ "simple" ∧ b ≠ "detailed" then
          .error ("invalid FORMAT: " ++ b ++ " (must be 'simple' or 'detailed')")
        else parseSPFormat rest2 b
      | [] => .ok fmt
    else parseSPFormat rest fmt

/-- buildSimplePathResponse: `<nodeID>:<nodeType>` per path node, fetched
from the given graph. -/
def buildSimplePathResponse (s : Store) (g : String) (pr : PathRes) :
    Except String Resp :=
  if pr.path.isEmpty then .ok .nullResp
  else
    match pr.path.foldlM
        (fun acc nid =>
          (match getNodeSE s g nid with
          | .ok nd => .ok (acc ++ [nd.id ++ ":" ++ nd.type])
          | .error m => .error ("failed to get node " ++ nid ++ ": " ++ m) :
            Except String (List String)))
        ([] : List String) with
    | .error m => .error m
    | .ok xs => .ok (.arr xs)

/-- The node-details pass of buildMultiPathResponse.  The source passes
`models.GraphID(pathResult.FromNodeID)` — the *from node* ID — as the
graph ID of every lookup; the embedding reproduces that. -/
def multiPathNodeDetails (s : Store) (pr : PathRes) : Except String (List NodeRec) :=
  pr.path.foldlM
    (fun acc nid =>
      (match getNodeSE s pr.fromId nid with
      | .ok nd => .ok (acc ++ [nd])
      | .error m => .error ("failed to get node " ++ nid ++ ": " ++ m) :
        Except String (List NodeRec)))
    ([] : List NodeRec)

/-- The arrow-notation pass of buildMultiPathResponse (edges also fetched
with `GraphID(pathResult.FromNodeID)`); a failed edge fetch renders
`->unknown:unknown->`. -/
def multiPathSegs (s : Store) (pr : PathRes) (nds : List NodeRec) : String :=
  (List.range nds.length).foldl
    (fun acc i =>
      let node := nds.getD i nodeDflt
      let acc := acc ++ node.id ++ ":" ++ node.type
      if i < nds.length - 1 ∧ i < pr.edges.length then
        match getEdgeSE s pr.fromId (pr.edges.getD i "") with
        | .ok e =>
          let arrow := buildArrow node.id (nds.getD (i + 1) nodeDflt).id e
          acc ++ arrow ++ e.id ++ ":" ++ e.type ++ arrow
        | .error _ => acc ++ "->unknown:unknown->"
      else acc)
    ""

/-- buildMultiPathResponse: a count string followed by one arrow-notation
string per path. -/
def buildMultiPathResponse (s : Store) (allPaths : List PathRes) :
    Except String Resp :=
  match allPaths.foldlM
      (fun acc pr =>
        (match multiPathNodeDetails s pr with
        | .error m => .error m
        | .ok nds => .ok (acc ++ [multiPathSegs s pr nds]) :
          Except String (List String)))
      ([] : List String) with
  | .error m => .error m
  | .ok strs => .ok (.arr (toString allPaths.length :: strs))

/-- Fuel for the two BFS loops inside the handler (their Go counterparts
terminate; generous fuel keeps the embedding total). -/
def spFuel : Nat := 1000

/-- handleShortestPath: `ANALYSIS.SHORTESTPATH <graph> <from> <to>
[algorithm] [FORMAT simple|detailed]`.  Detailed format runs
AllShortestPaths and renders through buildMultiPathResponse. -/
def handleShortestPath (s : Store) (args : List String) : Except String Resp :=
  if args.length < 3 then
    .error "ANALYSIS.SHORTESTPATH requires at least 3 arguments: graph, from, to"
  else
    let graphID := args.getD 0 ""
    let fromId := args.getD 1 ""
    let toId := args.getD 2 ""
    match parseSPFormat (args.drop 3) "detailed" with
    | .error m => .error m
    | .ok format =>
      match getShortestPath (storeView s graphID) fromId toId none spFuel with
      | .error m => .error ("failed to compute shortest path: " ++ m)
      | .ok pathResult =>
        if format = "simple" then buildSimplePathResponse s graphID pathResult
        else
          let allPaths := allShortestPaths (storeView s graphID) fromId toId spFuel
          if allPaths.isEmpty then .ok .nullResp
          else buildMultiPathResponse s allPaths

/-! ## Lemmas about the key-value store -/

theorem strExt {a b : String} (h : a.data = b.data) : a = b := by
  cases a; cases b; exact congrArg String.mk h

theorem kvGet_cons (k1 : String) (e1 : Entry) (l : Store) (k' : String) :
    kvGet ((k1, e1) :: l) k' = if k1 = k' then some e1.val else kvGet l k' := by
  by_cases h : k1 = k' <;> simp [kvGet, List.find?, h]

theorem kvGetEntry_cons (k1 : String) (e1 : Entry) (l : Store) (k' : String) :
    kvGetEntry ((k1, e1) :: l) k' = if k1 = k' then some e1 else kvGetEntry l k' := by
  by_cases h : k1 = k' <;> simp [kvGetEntry, List.find?, h]

theorem kvGet_nil (k' : String) : kvGet [] k' = none := rfl

theorem kvGet_kvSet (s : Store) (k k' : String) (v : Val) (ttl : Option String) :
    kvGet (kvSet s k v ttl) k' = if k' = k then some v else kvGet s k' := by
  induction s with
  | nil =>
    by_cases h : k' = k
    · subst h; simp [kvSet, kvGet_cons]
    · have h' : ¬ k = k' := fun he => h he.symm
      simp [kvSet, kvGet_cons, h, h', kvGet_nil]
  | cons kv rest ih =>
    obtain ⟨k1, e1⟩ := kv
    simp only [kvSet]
    by_cases h1 : k = k1
    · subst h1
      by_cases h2 : k' = k
      · subst h2; simp [kvGet_cons]
      · have h' : ¬ k = k' := fun he => h2 he.symm
        simp [kvGet_cons, h2, h']
    · by_cases h2 : strLt k k1 = true
      · simp only [if_neg h1, if_pos h2]
        by_cases h3 : k' = k
        · subst h3; simp [kvGet_cons]
        · have h' : ¬ k = k' := fun he => h3 he.symm
          simp [kvGet_cons, h3, h']
      · simp only [if_neg h1, if_neg h2]
        by_cases h4 : k1 = k'
        · subst h4
          have hne : ¬ k1 = k := fun he => h1 he.symm
          simp [kvGet_cons, hne]
        · simp [kvGet_cons, h4, ih]

theorem kvGetEntry_kvSet (s : Store) (k k' : String) (v : Val) (ttl : Option String) :
    kvGetEntry (kvSet s k v ttl) k' = if k' = k then some ⟨v, ttl⟩ else kvGetEntry s k' := by
  induction s with
  | nil =>
    by_cases h : k' = k
    · subst h; simp [kvSet, kvGetEntry_cons]
    · have h' : ¬ k = k' := fun he => h he.symm
      simp [kvSet, kvGetEntry_cons, h, h', kvGetEntry, List.find?]
  | cons kv rest ih =>
    obtain ⟨k1, e1⟩ := kv
    simp only [kvSet]
    by_cases h1 : k = k1
    · subst h1
      by_cases h2 : k' = k
      · subst h2; simp [kvGetEntry_cons]
      · have h' : ¬ k = k' := fun he => h2 he.symm
        simp [kvGetEntry_cons, h2, h']
    · by_cases h2 : strLt k k1 = true
      · simp only [if_neg h1, if_pos h2]
        by_cases h3 : k' = k
        · subst h3; simp [kvGetEntry_cons]
        · have h' : ¬ k = k' := fun he => h3 he.symm
          simp [kvGetEntry_cons, h3, h']
      · simp only [if_neg h1, if_neg h2]
        by_cases h4 : k1 = k'
        · subst h4
          have hne : ¬ k1 = k := fun he => h1 he.symm
          simp [kvGetEntry_cons, hne]
        · simp [kvGetEntry_cons, h4, ih]

theorem kvDelete_cons_eq (k1 : String) (e1 : Entry) (rest : Store) (k : String)
    (h : k1 = k) : kvDelete ((k1, e1) :: rest) k = kvDelete rest k := by
  simp [kvDelete, List.filter_cons, h]

theorem kvDelete_cons_ne (k1 : String) (e1 : Entry) (rest : Store) (k : String)
    (h : ¬ k1 = k) : kvDelete ((k1, e1) :: rest) k = (k1, e1) :: kvDelete rest k := by
  simp [kvDelete, List.filter_cons, h]

theorem kvGet_kvDelete (s : Store) (k k' : String) :
    kvGet (kvDelete s k) k' = if k' = k then none else kvGet s k' := by
  induction s with
  | nil => simp [kvDelete, kvGet_nil]
  | cons kv rest ih =>
    obtain ⟨k1, e1⟩ := kv
    by_cases h1 : k1 = k
    · rw [kvDelete_cons_eq _ _ _ _ h1, ih]
      by_cases h2 : k' = k
      · simp [h2]
      · have h3 : ¬ k1 = k' := by rw [h1]; exact fun he => h2 he.symm
        simp [h2, kvGet_cons, h3]
    · rw [kvDelete_cons_ne _ _ _ _ h1]
      by_cases h4 : k1 = k'
      · subst h4
        have hne : ¬ k1 = k := h1
        simp [kvGet_cons, hne]
      · simp [kvGet_cons, h4, ih]

theorem kvDelete_of_absent (s : Store) (k : String) (h : kvGet s k = none) :
    kvDelete s k = s := by
  induction s with
  | nil => rfl
  | cons kv rest ih =>
    obtain ⟨k1, e1⟩ := kv
    rw [kvGet_cons] at h
    by_cases h1 : k1 = k
    · simp [h1] at h
    · rw [kvDelete_cons_ne _ _ _ _ h1, ih (by simpa [h1] using h)]

theorem mem_of_kvGet {s : Store} {k : String} {v : Val} (h : kvGet s k = some v) :
    ∃ ent : Entry, (k, ent) ∈ s ∧ ent.val = v := by
  unfold kvGet at h
  cases hf : s.find? (fun kv => kv.1 = k) with
  | none => rw [hf] at h; exact absurd h (by simp)
  | some kv =>
    rw [hf] at h
    have hm := List.mem_of_find?_eq_some hf
    have hp := List.find?_some hf
    simp at hp h
    refine ⟨kv.2, ?_, h⟩
    have : kv = (k, kv.2) := by rw [← hp]
    rw [← this]; exact hm

theorem kvGet_of_mem {s : Store} (hnd : (s.map (·.1)).Nodup) {k : String}
    {ent : Entry} (h : (k, ent) ∈ s) : kvGet s k = some ent.val := by
  induction s with
  | nil => cases h
  | cons kv rest ih =>
    obtain ⟨k1, e1⟩ := kv
    simp only [List.map_cons, List.nodup_cons] at hnd
    rcases List.mem_cons.mp h with h0 | h0
    · have hk : k1 = k := (congrArg Prod.fst h0).symm
      have he : e1 = ent := (congrArg Prod.snd h0).symm
      subst hk; subst he
      simp [kvGet_cons]
    · have hk : k1 ≠ k := by
        intro he; subst he
        exact hnd.1 (List.mem_map.mpr ⟨(k1, ent), h0, rfl⟩)
      rw [kvGet_cons, if_neg hk]
      exact ih hnd.2 h0

theorem mem_kvEntriesUnder {s : Store} {p : String} {kv : String × Entry} :
    kv ∈ kvEntriesUnder s p ↔ kv ∈ s ∧ strHasPref p kv.1 = true := by
  simp [kvEntriesUnder, List.mem_filter]

theorem strHasPref_append (p x : String) : strHasPref p (p ++ x) = true := by
  simp [strHasPref, String.data_append, List.isPrefixOf_iff_prefix]

/-- In-place middles: `a ++ ':' :: x = b ++ ':' :: y` with colon-free `a`
and `b` forces `a = b` and `x = y` (the first colon pins the split). -/
theorem append_colon_inj {a b x y : List Char} (ha : ':' ∉ a) (hb : ':' ∉ b)
    (h : a ++ ':' :: x = b ++ ':' :: y) : a = b ∧ x = y := by
  induction a generalizing b with
  | nil =>
    cases b with
    | nil => simpa using h
    | cons d bs =>
      simp only [List.nil_append, List.cons_append, List.cons.injEq] at h
      refine absurd ?_ hb
      rw [h.1]
      exact List.mem_cons_self d bs
  | cons c as ih =>
    cases b with
    | nil =>
      simp only [List.cons_append, List.nil_append, List.cons.injEq] at h
      refine absurd ?_ ha
      rw [← h.1]
      exact List.mem_cons_self c as
    | cons d bs =>
      simp only [List.cons_append, List.cons.injEq] at h
      obtain ⟨rfl, h2⟩ := h
      have := ih (fun hm => ha (List.mem_cons_of_mem _ hm))
        (fun hm => hb (List.mem_cons_of_mem _ hm)) h2
      exact ⟨by rw [this.1], this.2⟩

/-- Absence of a colon in an identifier (the key decoders mis-parse IDs
containing `:`; spec §9 records this as a known limitation). -/
def noColon (x : String) : Prop := ':' ∉ x.data

instance (x : String) : Decidable (noColon x) := by
  unfold noColon; infer_instance

/-! ## Key (in)equality facts -/

theorem nodeTypeKey_inj_type {g t1 t2 n : String}
    (h : encodeNodeTypeIndexKey g t1 n = encodeNodeTypeIndexKey g t2 n) : t1 = t2 := by
  have h2 := congrArg String.data h
  simp [encodeNodeTypeIndexKey, typeIndexPref, String.data_append,
    List.append_assoc] at h2
  exact strExt h2

theorem nodeKey_inj {g a b : String} (h : encodeNodeKey g a = encodeNodeKey g b) :
    a = b := by
  have h2 := congrArg String.data h
  simp [encodeNodeKey, nodePref, String.data_append, List.append_assoc] at h2
  exact strExt h2

theorem edgeKey_inj {g a b : String} (h : encodeEdgeKey g a = encodeEdgeKey g b) :
    a = b := by
  have h2 := congrArg String.data h
  simp [encodeEdgeKey, edgePref, String.data_append, List.append_assoc] at h2
  exact strExt h2

theorem ne_nodeKey_nodeTypeKey (g n g' t' n' : String) :
    encodeNodeKey g n ≠ encodeNodeTypeIndexKey g' t' n' := by
  intro h
  have h2 := congrArg String.data h
  simp [encodeNodeKey, encodeNodeTypeIndexKey, nodePref, typeIndexPref,
    String.data_append] at h2

theorem ne_nodeKey_expiryKey (g n g' n' ts : String) :
    encodeNodeKey g n ≠ encodeExpiryIndexKey g' n' ts := by
  intro h
  have h2 := congrArg String.data h
  simp [encodeNodeKey, encodeExpiryIndexKey, nodePref, expiryIndexPref,
    String.data_append] at h2

theorem ne_nodeTypeKey_expiryKey (g t n g' n' ts : String) :
    encodeNodeTypeIndexKey g t n ≠ encodeExpiryIndexKey g' n' ts := by
  intro h
  have h2 := congrArg String.data h
  simp [encodeNodeTypeIndexKey, encodeExpiryIndexKey, typeIndexPref,
    expiryIndexPref, String.data_append] at h2

theorem ne_nodeKey_outKey (g n g' n' e' : String) :
    encodeNodeKey g n ≠ encodeNodeOutEdgeIndexKey g' n' e' := by
  intro h
  have h2 := congrArg String.data h
  simp [encodeNodeKey, encodeNodeOutEdgeIndexKey, nodePref, nodeIndexPref,
    String.data_append] at h2

theorem ne_nodeKey_inKey (g n g' n' e' : String) :
    encodeNodeKey g n ≠ encodeNodeInEdgeIndexKey g' n' e' := by
  intro h
  have h2 := congrArg String.data h
  simp [encodeNodeKey, encodeNodeInEdgeIndexKey, nodePref, nodeIndexPref,
    String.data_append] at h2

theorem ne_nodeKey_edgeKey (g n g' e' : String) :
    encodeNodeKey g n ≠ encodeEdgeKey g' e' := by
  intro h
  have h2 := congrArg String.data h
  simp [encodeNodeKey, encodeEdgeKey, nodePref, edgePref, String.data_append] at h2

theorem ne_nodeKey_edgeTypeKey (g n g' t' e' : String) :
    encodeNodeKey g n ≠ encodeEdgeTypeIndexKey g' t' e' := by
  intro h
  have h2 := congrArg String.data h
  simp [encodeNodeKey, encodeEdgeTypeIndexKey, nodePref, typeIndexPref,
    String.data_append] at h2

theorem ne_edgeKey_nodeTypeKey (g e g' t' n' : String) :
    encodeEdgeKey g e ≠ encodeNodeTypeIndexKey g' t' n' := by
  intro h
  have h2 := congrArg String.data h
  simp [encodeEdgeKey, encodeNodeTypeIndexKey, edgePref, typeIndexPref,
    String.data_append] at h2

theorem ne_edgeKey_expiryKey (g e g' n' ts : String) :
    encodeEdgeKey g e ≠ encodeExpiryIndexKey g' n' ts := by
  intro h
  have h2 := congrArg String.data h
  simp [encodeEdgeKey, encodeExpiryIndexKey, edgePref, expiryIndexPref,
    String.data_append] at h2

theorem ne_edgeKey_edgeTypeKey (g e g' t' e' : String) :
    encodeEdgeKey g e ≠ encodeEdgeTypeIndexKey g' t' e' := by
  intro h
  have h2 := congrArg String.data h
  simp [encodeEdgeKey, encodeEdgeTypeIndexKey, edgePref, typeIndexPref,
    String.data_append] at h2

theorem ne_edgeKey_outKey (g e g' n' e' : String) :
    encodeEdgeKey g e ≠ encodeNodeOutEdgeIndexKey g' n' e' := by
  intro h
  have h2 := congrArg String.data h
  simp [encodeEdgeKey, encodeNodeOutEdgeIndexKey, edgePref, nodeIndexPref,
    String.data_append] at h2

theorem ne_edgeKey_inKey (g e g' n' e' : String) :
    encodeEdgeKey g e ≠ encodeNodeInEdgeIndexKey g' n' e' := by
  intro h
  have h2 := congrArg String.data h
  simp [encodeEdgeKey, encodeNodeInEdgeIndexKey, edgePref, nodeIndexPref,
    String.data_append] at h2

theorem ne_edgeTypeKey_outKey (g t e g' n' e' : String) :
    encodeEdgeTypeIndexKey g t e ≠ encodeNodeOutEdgeIndexKey g' n' e' := by
  intro h
  have h2 := congrArg String.data h
  simp [encodeEdgeTypeIndexKey, encodeNodeOutEdgeIndexKey, typeIndexPref,
    nodeIndexPref, String.data_append] at h2

theorem ne_edgeTypeKey_inKey (g t e g' n' e' : String) :
    encodeEdgeTypeIndexKey g t e ≠ encodeNodeInEdgeIndexKey g' n' e' := by
  intro h
  have h2 := congrArg String.data h
  simp [encodeEdgeTypeIndexKey, encodeNodeInEdgeIndexKey, typeIndexPref,
    nodeIndexPref, String.data_append] at h2

theorem ne_edgeTypeKey_nodeTypeKey (g t e g' t' n' : String) :
    encodeEdgeTypeIndexKey g t e ≠ encodeNodeTypeIndexKey g' t' n' := by
  intro h
  have h2 := congrArg String.data h
  simp [encodeEdgeTypeIndexKey, encodeNodeTypeIndexKey, typeIndexPref,
    String.data_append] at h2

theorem ne_edgeTypeKey_expiryKey (g t e g' n' ts : String) :
    encodeEdgeTypeIndexKey g t e ≠ encodeExpiryIndexKey g' n' ts := by
  intro h
  have h2 := congrArg String.data h
  simp [encodeEdgeTypeIndexKey, encodeExpiryIndexKey, typeIndexPref,
    expiryIndexPref, String.data_append] at h2

theorem ne_outKey_inKey (g n e g' n' e' : String) :
    encodeNodeOutEdgeIndexKey g n e ≠ encodeNodeInEdgeIndexKey g' n' e' := by
  intro h
  have h2 := congrArg String.data h
  simp [encodeNodeOutEdgeIndexKey, encodeNodeInEdgeIndexKey, nodeIndexPref,
    String.data_append] at h2

theorem ne_outKey_nodeTypeKey (g n e g' t' n' : String) :
    encodeNodeOutEdgeIndexKey g n e ≠ encodeNodeTypeIndexKey g' t' n' := by
  intro h
  have h2 := congrArg String.data h
  simp [encodeNodeOutEdgeIndexKey, encodeNodeTypeIndexKey, nodeIndexPref,
    typeIndexPref, String.data_append] at h2

theorem ne_outKey_expiryKey (g n e g' n' ts : String) :
    encodeNodeOutEdgeIndexKey g n e ≠ encodeExpiryIndexKey g' n' ts := by
  intro h
  have h2 := congrArg String.data h
  simp [encodeNodeOutEdgeIndexKey, encodeExpiryIndexKey, nodeIndexPref,
    expiryIndexPref, String.data_append] at h2

theorem ne_inKey_nodeTypeKey (g n e g' t' n' : String) :
    encodeNodeInEdgeIndexKey g n e ≠ encodeNodeTypeIndexKey g' t' n' := by
  intro h
  have h2 := congrArg String.data h
  simp [encodeNodeInEdgeIndexKey, encodeNodeTypeIndexKey, nodeIndexPref,
    typeIndexPref, String.data_append] at h2

theorem ne_inKey_expiryKey (g n e g' n' ts : String) :
    encodeNodeInEdgeIndexKey g n e ≠ encodeExpiryIndexKey g' n' ts := by
  intro h
  have h2 := congrArg String.data h
  simp [encodeNodeInEdgeIndexKey, encodeExpiryIndexKey, nodeIndexPref,
    expiryIndexPref, String.data_append] at h2

/-- Joint injectivity of the outgoing-adjacency key in its node and edge
components, given colon-free node IDs. -/
theorem outKey_inj {g a b ea eb : String} (ha : noColon a) (hb : noColon b)
    (h : encodeNodeOutEdgeIndexKey g a ea = encodeNodeOutEdgeIndexKey g b eb) :
    a = b ∧ ea = eb := by
  have h2 := congrArg String.data h
  simp only [encodeNodeOutEdgeIndexKey, nodeIndexPref, String.data_append,
    List.append_assoc] at h2
  have h3 := List.append_cancel_left h2
  have h4 := List.append_cancel_left h3
  have h5 := List.append_cancel_left h4
  have h6 : a.data ++ ':' :: ea.data = b.data ++ ':' :: eb.data := by
    simpa using h5
  have h7 := append_colon_inj ha hb h6
  exact ⟨strExt h7.1, strExt h7.2⟩

/-- Same for the incoming-adjacency key. -/
theorem inKey_inj {g a b ea eb : String} (ha : noColon a) (hb : noColon b)
    (h : encodeNodeInEdgeIndexKey g a ea = encodeNodeInEdgeIndexKey g b eb) :
    a = b ∧ ea = eb := by
  have h2 := congrArg String.data h
  simp only [encodeNodeInEdgeIndexKey, nodeIndexPref, String.data_append,
    List.append_assoc] at h2
  have h3 := List.append_cancel_left h2
  have h4 := List.append_cancel_left h3
  have h5 := List.append_cancel_left h4
  have h6 : a.data ++ ':' :: ea.data = b.data ++ ':' :: eb.data := by
    simpa using h5
  have h7 := append_colon_inj ha hb h6
  exact ⟨strExt h7.1, strExt h7.2⟩

theorem outKey_eq_pref_append (g n e : String) :
    encodeNodeOutEdgeIndexKey g n e = outPref g n ++ e := by
  simp [encodeNodeOutEdgeIndexKey, outPref, String.append_assoc]

theorem inKey_eq_pref_append (g n e : String) :
    encodeNodeInEdgeIndexKey g n e = inPref g n ++ e := by
  simp [encodeNodeInEdgeIndexKey, inPref, String.append_assoc]

/-! ## Concrete stores used by the claim theorems -/

/-- Extract the resulting store of an operation known to succeed (used only
to build concrete test stores). -/
def okStore (r : Except String Store) : Store := r.toOption.getD []

/-- A node `n` in graph `g` whose expiry lies at the end of the current UTC
hour, while "now" is just past the top of the hour. -/
def ttlNow : String := "2026-10-11T12:00:01Z"
def ttlExp : String := "2026-10-11T12:59:59Z"
def ttlStore : Store :=
  okStore (createNodeTx [] "g" { id := "n", type := "svc", expiresAt := some ttlExp })

/-- The linear-chain graph of the spec's first end-to-end scenario. -/
def chainStore : Store :=
  okStore (do
    let s0 := kvSet [] (encodeGraphKey "g") (.str "graph")
    let s1 ← createNodeTx s0 "g" { id := "a", type := "service" }
    let s2 ← createNodeTx s1 "g" { id := "b", type := "service" }
    let s3 ← createNodeTx s2 "g" { id := "c", type := "database" }
    let s4 ← createEdgeTx s3 "now" "g"
      { id := "ab", type := "calls", fromId := "a", toId := "b" }
    createEdgeTx s4 "now" "g"
      { id := "bc", type := "writes_to", fromId := "b", toId := "c" })

/-- Upsert-create of the same node ID with a changed type. -/
def reStore1 : Store := okStore (createNodeTx [] "g" { id := "x", type := "t1" })
def reStore2 : Store := okStore (createNodeTx reStore1 "g" { id := "x", type := "t2" })

/-- A node created under graph `g` although no graph record `g:g` exists
(the store allows this; spec §9 notes it). -/
def orphanStore : Store := okStore (createNodeTx [] "g" { id := "x", type := "t" })

/-! ## C1 — TTL sweep -/

/-- C1: the claim says one sweep collects and deletes exactly the
expiry-index entries whose timestamp is ≤ now, so that no node whose
`ExpiresAt` lies in the future is deleted.  The code splits the key on
`:`, so the compared field is the RFC3339 timestamp truncated at its first
colon — the date and hour only.  A node expiring later within the current
UTC hour (now = 12:00:01Z, ExpiresAt = 12:59:59Z, so now < ExpiresAt)
is therefore collected and deleted by the sweep. -/
theorem ttl_sweep_deletes_future_node :
    strLt ttlNow ttlExp = true ∧
    collectExpiredKeys ttlStore ttlNow = [encodeExpiryIndexKey "g" "n" ttlExp] ∧
    getNodeSE ttlStore "g" "n" =
      .ok { id := "n", type := "svc", expiresAt := some ttlExp } ∧
    getNodeSE (cleanupExpiredNodes ttlStore ttlNow) "g" "n" =
      .error "node not found: n" :=
  ⟨by decide, by decide, by decide, by decide⟩

/-! ## C2 — ANALYSIS.SHORTESTPATH FORMAT detailed -/

/-- C2: on the linear chain the claim expects the reply
`["1", "a:service->ab:calls->b:service->bc:writes_to->c:database"]`.
BFS does find the path a→b→c, but `buildMultiPathResponse` passes
`pathResult.FromNodeID` ("a") as the *graph* ID of every node lookup, so
the handler fails with `failed to get node a: node not found: a` instead
of producing the documented reply. -/
theorem shortestpath_detailed_graph_id_slip :
    getShortestPath (storeView chainStore "g") "a" "c" none spFuel =
      .ok { fromId := "a", toId := "c", path := ["a", "b", "c"], length := 2,
            edges := ["ab", "bc"] } ∧
    handleShortestPath chainStore ["g", "a", "c", "FORMAT", "detailed"] =
      .error "failed to get node a: node not found: a" ∧
    handleShortestPath chainStore ["g", "a", "c", "FORMAT", "detailed"] ≠
      .ok (.arr ["1", "a:service->ab:calls->b:service->bc:writes_to->c:database"]) :=
  ⟨by decide, by decide, by decide⟩

/-! ## C3 — type-index coherence under upsert-create -/

/-- C3, counterexample: after `create_node(x, t1)` followed by
`create_node(x, t2)` the stored node has type `t2`, yet the type-index
entry for the old type `t1` is still present — create does not remove it,
so index coherence is violated; the claim that the second create removes
the old entry "exactly as update_node does" is false. -/
theorem create_upsert_keeps_stale_type_index :
    getNodeSE reStore2 "g" "x" = .ok { id := "x", type := "t2" } ∧
    kvGet reStore2 (encodeNodeTypeIndexKey "g" "t1" "x") = some (.str "x") ∧
    kvGet reStore2 (encodeNodeTypeIndexKey "g" "t2" "x") = some (.str "x") :=
  ⟨by decide, by decide, by decide⟩

/-- C3, amended: an upsert-create over an existing node of a different
type writes the new type-index entry but leaves the old one untouched;
only `update_node` deletes the old entry and writes the new one. -/
theorem create_vs_update_type_index (s : Store) (g : String) (nd old : NodeRec)
    (hold : getNodeSE s g nd.id = .ok old) (hne : old.type ≠ nd.type) :
    (∃ s', createNodeTx s g nd = .ok s' ∧
      kvGet s' (encodeNodeTypeIndexKey g old.type nd.id) =
        kvGet s (encodeNodeTypeIndexKey g old.type nd.id) ∧
      kvGet s' (encodeNodeTypeIndexKey g nd.type nd.id) = some (.str nd.id)) ∧
    (∃ s'', updateNodeTx s g nd = .ok s'' ∧
      kvGet s'' (encodeNodeTypeIndexKey g old.type nd.id) = none ∧
      kvGet s'' (encodeNodeTypeIndexKey g nd.type nd.id) = some (.str nd.id)) := by
  have hOldNew : ∀ x, ¬ (encodeNodeTypeIndexKey g old.type x =
      encodeNodeTypeIndexKey g nd.type x) :=
    fun x h => hne (nodeTypeKey_inj_type h)
  have hOldNode : ∀ a b, ¬ (encodeNodeTypeIndexKey g old.type a = encodeNodeKey g b) :=
    fun a b h => ne_nodeKey_nodeTypeKey g b g old.type a h.symm
  have hNewNode : ∀ a b, ¬ (encodeNodeTypeIndexKey g nd.type a = encodeNodeKey g b) :=
    fun a b h => ne_nodeKey_nodeTypeKey g b g nd.type a h.symm
  have hOldExp : ∀ a b ts, ¬ (encodeNodeTypeIndexKey g old.type a =
      encodeExpiryIndexKey g b ts) :=
    fun a b ts h => ne_nodeTypeKey_expiryKey g old.type a g b ts h
  have hNewExp : ∀ a b ts, ¬ (encodeNodeTypeIndexKey g nd.type a =
      encodeExpiryIndexKey g b ts) :=
    fun a b ts h => ne_nodeTypeKey_expiryKey g nd.type a g b ts h
  constructor
  · have hcr : ∃ s', createNodeTx s g nd = .ok s' := by
      unfold createNodeTx
      cases nd.expiresAt <;> exact ⟨_, rfl⟩
    obtain ⟨s', hs'⟩ := hcr
    refine ⟨s', hs', ?_, ?_⟩
    · unfold createNodeTx at hs'
      cases hE : nd.expiresAt with
      | none =>
        rw [hE] at hs'
        injection hs' with h; subst h
        simp [kvGet_kvSet, hOldNew, hOldNode]
      | some t =>
        rw [hE] at hs'
        injection hs' with h; subst h
        simp [kvGet_kvSet, hOldNew, hOldNode, hOldExp]
    · unfold createNodeTx at hs'
      cases hE : nd.expiresAt with
      | none =>
        rw [hE] at hs'
        injection hs' with h; subst h
        simp [kvGet_kvSet, hNewNode]
      | some t =>
        rw [hE] at hs'
        injection hs' with h; subst h
        simp [kvGet_kvSet, hNewNode, hNewExp]
  · have hup : ∃ s'', updateNodeTx s g nd = .ok s'' := by
      simp only [updateNodeTx, hold]
      exact ⟨_, rfl⟩
    obtain ⟨s'', hs''⟩ := hup
    refine ⟨s'', hs'', ?_, ?_⟩
    · simp only [updateNodeTx, hold] at hs''
      injection hs'' with h; subst h
      rw [if_pos hne]
      split_ifs <;>
        simp [kvGet_kvSet, kvGet_kvDelete, hOldNew, hOldNode, hOldExp]
    · simp only [updateNodeTx, hold] at hs''
      injection hs'' with h; subst h
      rw [if_pos hne]
      have hNewOld : ∀ x, ¬ (encodeNodeTypeIndexKey g nd.type x =
          encodeNodeTypeIndexKey g old.type x) := fun x h => hOldNew x h.symm
      split_ifs <;>
        simp [kvGet_kvSet, kvGet_kvDelete, hNewNode, hNewExp, hNewOld]

/-- Witness for the amended C3 theorem at the concrete upsert input. -/
theorem create_vs_update_type_index_witness :
    (∃ s', createNodeTx reStore1 "g" { id := "x", type := "t2" } = .ok s' ∧
      kvGet s' (encodeNodeTypeIndexKey "g" "t1" "x") =
        kvGet reStore1 (encodeNodeTypeIndexKey "g" "t1" "x") ∧
      kvGet s' (encodeNodeTypeIndexKey "g" "t2" "x") = some (.str "x")) ∧
    (∃ s'', updateNodeTx reStore1 "g" { id := "x", type := "t2" } = .ok s'' ∧
      kvGet s'' (encodeNodeTypeIndexKey "g" "t1" "x") = none ∧
      kvGet s'' (encodeNodeTypeIndexKey "g" "t2" "x") = some (.str "x")) :=
  create_vs_update_type_index reStore1 "g" { id := "x", type := "t2" }
    { id := "x", type := "t1" } (by decide) (by decide)

/-! ## C4 — DFS stop predicate -/

/-- A one-node graph with a stop predicate that always fires. -/
def stopView : StorageView := mkView [{ id := "s", type := "t" }] []
def stopOpts : TraversalOptions := { stopCondition := some (fun _ => true) }

/-- C4, counterexample: the claim says a node on which the stop predicate
fires is not expanded *but still appears in the returned visited-node list
and path*.  Running DFS from the single node `s` with an always-true stop
predicate returns empty node and path lists: the code `continue`s before
adding the node, so the stopped node appears in neither. -/
theorem dfs_stop_excludes_node :
    stopView.getNode "s" = some { id := "s", type := "t" } ∧
    stopHolds stopOpts { id := "s", type := "t" } = true ∧
    depthFirstSearch stopView "s" (some stopOpts) 10 =
      .ok { nodes := [], edges := [], path := [], distance := -1 } :=
  ⟨rfl, rfl, rfl⟩

/-! ## C7 — referential integrity of create_edge -/

/-- C7: create_edge fails whenever an endpoint does not resolve to an
existing node of the graph, and the enclosing write transaction leaves the
store unchanged (the endpoint checks precede every write, and the engine
rolls back on error). -/
theorem create_edge_checks_endpoints (s : Store) (now g : String) (e : EdgeRec)
    (h : getNodeS s g e.fromId = none ∨ getNodeS s g e.toId = none) :
    (∃ m, createEdgeTx s now g e = .error m) ∧
    (engineCreateEdge s now g e).2 = s := by
  have errOf : ∀ n : String, getNodeS s g n = none →
      ∃ m0, getNodeSE s g n = .error m0 := by
    intro n hn
    unfold getNodeS at hn
    cases hg : getNodeSE s g n with
    | ok v => rw [hg] at hn; simp [Except.toOption] at hn
    | error m0 => exact ⟨m0, rfl⟩
  have hmain : ∃ m, createEdgeTx s now g e = .error m := by
    rcases h with h | h
    · obtain ⟨m0, hm0⟩ := errOf _ h
      exact ⟨"source node does not exist: " ++ m0, by simp [createEdgeTx, hm0]⟩
    · cases hg : getNodeSE s g e.fromId with
      | error m0 =>
        exact ⟨"source node does not exist: " ++ m0, by simp [createEdgeTx, hg]⟩
      | ok v =>
        obtain ⟨m0, hm0⟩ := errOf _ h
        exact ⟨"target node does not exist: " ++ m0, by simp [createEdgeTx, hg, hm0]⟩
  refine ⟨hmain, ?_⟩
  obtain ⟨m, hm⟩ := hmain
  simp [engineCreateEdge, hm]

/-- Witness: creating an edge in the empty store fails and adds nothing. -/
theorem create_edge_checks_endpoints_witness :
    (∃ m, createEdgeTx [] "2020-01-01T00:00:00Z" "g"
      { id := "x", type := "t", fromId := "a", toId := "b" } = .error m) ∧
    (engineCreateEdge [] "2020-01-01T00:00:00Z" "g"
      { id := "x", type := "t", fromId := "a", toId := "b" }).2 = [] :=
  create_edge_checks_endpoints [] "2020-01-01T00:00:00Z" "g"
    { id := "x", type := "t", fromId := "a", toId := "b" } (Or.inl (by decide))

/-! ## C9 — delete asymmetry -/

/-- C9, counterexample: `orphanStore` holds a node under graph ID `g`
although no graph record exists (the store permits creating nodes in a
non-existent graph).  `delete_graph g` then succeeds — but it deletes the
node and its type index, so the store is *not* left unchanged, refuting
the claim's "returns success and leaves the store unchanged". -/
theorem delete_graph_missing_changes_store :
    getGraphSE orphanStore "g" = .error "graph not found: g" ∧
    deleteGraph orphanStore "g" = .ok [] ∧
    orphanStore ≠ [] :=
  ⟨by decide, by decide, by decide⟩

/-- C9, amended: delete_graph on a graph ID with no graph record *and no
node or edge keys* succeeds and leaves the store unchanged (in particular
it is idempotent), while delete_node and delete_edge on missing IDs return
errors and leave the store unchanged. -/
theorem delete_asymmetry (s : Store) (g : String)
    (h1 : kvGet s (encodeGraphKey g) = none)
    (h2 : kvEntriesUnder s (createNodeIterPref g) = [])
    (h3 : kvEntriesUnder s (createEdgeIterPref g) = []) :
    deleteGraph s g = .ok s ∧
    (∀ n, getNodeS s g n = none → ∃ m, deleteNodeTxP s g n = (some m, s)) ∧
    (∀ eid, getEdgeS s g eid = none → ∃ m, deleteEdgeTx s g eid = .error m) := by
  refine ⟨?_, ?_, ?_⟩
  · simp only [deleteGraph, h2, List.map_nil, List.foldl_nil, h3]
    rw [kvDelete_of_absent s _ h1]
  · intro n hn
    unfold getNodeS at hn
    cases hg : getNodeSE s g n with
    | ok v => rw [hg] at hn; simp [Except.toOption] at hn
    | error m0 =>
      exact ⟨"node does not exist: " ++ m0, by simp [deleteNodeTxP, hg]⟩
  · intro eid he
    unfold getEdgeS at he
    cases hg : getEdgeSE s g eid with
    | ok v => rw [hg] at he; simp [Except.toOption] at he
    | error m0 =>
      exact ⟨"edge does not exist: " ++ m0, by simp [deleteEdgeTx, hg]⟩

/-- Witness for the amended C9 theorem: a store holding only another
graph's node; deletes of the absent graph (and of missing node/edge IDs)
behave as stated. -/
theorem delete_asymmetry_witness :
    deleteGraph (okStore (createNodeTx [] "h" { id := "y", type := "t" })) "g" =
      .ok (okStore (createNodeTx [] "h" { id := "y", type := "t" })) ∧
    (∃ m, deleteNodeTxP (okStore (createNodeTx [] "h" { id := "y", type := "t" }))
      "g" "zz" = (some m, okStore (createNodeTx [] "h" { id := "y", type := "t" }))) ∧
    (∃ m, deleteEdgeTx (okStore (createNodeTx [] "h" { id := "y", type := "t" }))
      "g" "zz" = .error m) := by
  have T := delete_asymmetry (okStore (createNodeTx [] "h" { id := "y", type := "t" }))
    "g" (by decide) (by decide) (by decide)
  exact ⟨T.1, T.2.1 "zz" (by decide), T.2.2 "zz" (by decide)⟩

/-! ## C5 — BFS minimality and AllShortestPaths -/

/-- Specification-side notion: a forward-directed path (consecutive nodes
linked by an outgoing edge). -/
def isFwdPath (v : StorageView) : List String → Bool
  | [] => false
  | [_] => true
  | x :: y :: rest =>
    ((v.outgoing x).any (fun e => e.toId = y)) && isFwdPath v (y :: rest)

/-- One forward expansion of a node front. -/
def stepFwd (v : StorageView) (front : List String) : List String :=
  front ++ front.flatMap (fun x => (v.outgoing x).map (·.toId))

/-- Nodes reachable from `front` in at most `k` forward steps. -/
def reachIn (v : StorageView) : Nat → List String → List String
  | 0, front => front
  | k + 1, front => reachIn v k (stepFwd v front)

theorem subset_stepFwd (v : StorageView) (front : List String) :
    front ⊆ stepFwd v front := by
  intro x hx
  simp [stepFwd]
  exact Or.inl hx

theorem toId_mem_stepFwd (v : StorageView) (front : List String) (x : String)
    (hx : x ∈ front) {e : EdgeRec} (he : e ∈ v.outgoing x) :
    e.toId ∈ stepFwd v front := by
  simp [stepFwd]
  exact Or.inr ⟨x, hx, e, he, rfl⟩

theorem stepFwd_mono (v : StorageView) {f1 f2 : List String} (h : f1 ⊆ f2) :
    stepFwd v f1 ⊆ stepFwd v f2 := by
  intro x hx
  simp [stepFwd] at hx ⊢
  rcases hx with hx | ⟨a, ha, e, he, rfl⟩
  · exact Or.inl (h hx)
  · exact Or.inr ⟨a, h ha, e, he, rfl⟩

theorem reachIn_mono (v : StorageView) (k : Nat) {f1 f2 : List String}
    (h : f1 ⊆ f2) : reachIn v k f1 ⊆ reachIn v k f2 := by
  induction k generalizing f1 f2 with
  | zero => exact h
  | succ k ih => exact ih (stepFwd_mono v h)

theorem reachIn_succ_incl (v : StorageView) (k : Nat) (front : List String) :
    reachIn v k front ⊆ reachIn v (k + 1) front := by
  induction k generalizing front with
  | zero => exact subset_stepFwd v front
  | succ k ih =>
    show reachIn v k (stepFwd v front) ⊆ reachIn v (k + 1) (stepFwd v front)
    exact ih (stepFwd v front)

theorem reachIn_le (v : StorageView) {k k' : Nat} (h : k ≤ k')
    (front : List String) : reachIn v k front ⊆ reachIn v k' front := by
  induction h with
  | refl => exact fun x hx => hx
  | step h ih => exact fun x hx => reachIn_succ_incl v _ front (ih hx)

/-- Every forward path starting at `x` ends inside the bounded
reachability set of `x`. -/
theorem fwdPath_last_mem_reachIn (v : StorageView) (p : List String) :
    ∀ x, isFwdPath v (x :: p) = true → p.getLastD x ∈ reachIn v p.length [x] := by
  induction p with
  | nil => intro x _; simp [reachIn]
  | cons y rest ih =>
    intro x hp
    simp only [isFwdPath, Bool.and_eq_true, List.any_eq_true] at hp
    obtain ⟨⟨e, he, hto⟩, htail⟩ := hp
    have hto' : e.toId = y := of_decide_eq_true hto
    have h1 : rest.getLastD y ∈ reachIn v rest.length [y] := ih y htail
    have h2 : ([y] : List String) ⊆ stepFwd v [x] := by
      intro z hz
      simp at hz
      subst hz
      have := toId_mem_stepFwd v [x] x (by simp) he
      rwa [hto'] at this
    have h3 := reachIn_mono v rest.length h2 h1
    rw [List.getLastD_cons]
    show rest.getLastD y ∈ reachIn v rest.length (stepFwd v [x])
    exact h3

/-- The branching graph u→a→b→{c,d}→t (edge IDs sorted so that the edge
to c is enumerated before the edge to d). -/
def c5v : StorageView := mkView
  [{ id := "u", type := "t" }, { id := "a", type := "t" }, { id := "b", type := "t" },
   { id := "c", type := "t" }, { id := "d", type := "t" }, { id := "t", type := "t" }]
  [{ id := "ua", type := "x", fromId := "u", toId := "a" },
   { id := "ab", type := "x", fromId := "a", toId := "b" },
   { id := "bc", type := "x", fromId := "b", toId := "c" },
   { id := "bd", type := "x", fromId := "b", toId := "d" },
   { id := "ct", type := "x", fromId := "c", toId := "t" },
   { id := "dt", type := "x", fromId := "d", toId := "t" }]

/-- C5: on the branching graph, GetShortestPath does return a minimal path
(u,a,b,c,t of length 4), but AllShortestPaths does not return every
minimal forward path: `append` on the shared path backing array overwrites
the enqueued path through c when the path through d is enqueued (Go slice
aliasing), so both returned results carry the node list [u,a,b,d,t] — one
of them paired with the edge list that goes through c — and the minimal
forward path [u,a,b,c,t] is missing from the output. -/
theorem all_shortest_paths_slice_aliasing
    (rest : List String) (hp : isFwdPath c5v ("u" :: rest) = true)
    (hlast : rest.getLastD "u" = "t") :
    4 ≤ rest.length ∧
    getShortestPath c5v "u" "t" none 100 =
      .ok { fromId := "u", toId := "t", path := ["u", "a", "b", "c", "t"],
            length := 4, edges := ["ua", "ab", "bc", "ct"] } ∧
    isFwdPath c5v ["u", "a", "b", "c", "t"] = true ∧
    (allShortestPaths c5v "u" "t" 100).map (fun r => (r.path, r.edges)) =
      [(["u", "a", "b", "d", "t"], ["ua", "ab", "bc", "ct"]),
       (["u", "a", "b", "d", "t"], ["ua", "ab", "bd", "dt"])] ∧
    ["u", "a", "b", "c", "t"] ∉ (allShortestPaths c5v "u" "t" 100).map (·.path) := by
  refine ⟨?_, by decide, by decide, by decide, by decide⟩
  by_contra hlt
  push_neg at hlt
  have hle : rest.length ≤ 3 := by omega
  have h1 := fwdPath_last_mem_reachIn c5v rest "u" hp
  rw [hlast] at h1
  have h2 : "t" ∈ reachIn c5v 3 ["u"] := reachIn_le c5v hle ["u"] h1
  revert h2
  decide

/-- Witness: the no-short-path hypothesis holds for the concrete minimal
path through c, and the conclusions are as stated. -/
theorem all_shortest_paths_slice_aliasing_witness :
    4 ≤ (["a", "b", "c", "t"] : List String).length ∧
    getShortestPath c5v "u" "t" none 100 =
      .ok { fromId := "u", toId := "t", path := ["u", "a", "b", "c", "t"],
            length := 4, edges := ["ua", "ab", "bc", "ct"] } ∧
    isFwdPath c5v ["u", "a", "b", "c", "t"] = true ∧
    (allShortestPaths c5v "u" "t" 100).map (fun r => (r.path, r.edges)) =
      [(["u", "a", "b", "d", "t"], ["ua", "ab", "bc", "ct"]),
       (["u", "a", "b", "d", "t"], ["ua", "ab", "bd", "dt"])] ∧
    ["u", "a", "b", "c", "t"] ∉ (allShortestPaths c5v "u" "t" 100).map (·.path) :=
  all_shortest_paths_slice_aliasing ["a", "b", "c", "t"] (by decide) (by decide)

/-! ## C4 (amended) — the stop predicate prunes and excludes -/

theorem dfsPush_edges_mem (dir : Dir) (cur : String) (depth : Int)
    (visited : List String) (l : List EdgeRec)
    (acc : List (String × Int) × List EdgeRec) :
    ∀ e ∈ (l.foldl (dfsPushStep dir cur depth visited) acc).2,
      e ∈ acc.2 ∨ (dir = .forward → e.fromId = cur) := by
  induction l generalizing acc with
  | nil => intro e he; exact Or.inl he
  | cons a l ih =>
    intro e he
    rcases ih (dfsPushStep dir cur depth visited acc a) e he with h | h
    · by_cases hc : nextNodeOf dir cur a ≠ "" ∧
          visited.contains (nextNodeOf dir cur a) = false
      · simp only [dfsPushStep, if_pos hc] at h
        rcases List.mem_append.mp h with h0 | h0
        · exact Or.inl h0
        · have ha : e = a := by simpa using h0
          subst ha
          refine Or.inr ?_
          intro hdir
          subst hdir
          by_cases hf : e.fromId = cur
          · exact hf
          · exfalso
            apply hc.1
            simp [nextNodeOf, hf]
      · simp only [dfsPushStep, if_neg hc] at h
        exact Or.inl h
    · exact Or.inr h
  
theorem dfsLoop_stop_inv (v : StorageView) (opts : TraversalOptions) :
    ∀ fuel stack visited nodes edges path r,
      dfsLoop v opts fuel stack visited nodes edges path = .ok r →
      (∀ nd ∈ nodes, stopHolds opts nd = false) →
      (∀ nid ∈ path, ∃ nd, v.getNode nid = some nd ∧ stopHolds opts nd = false) →
      (∀ e ∈ edges, opts.direction = .forward →
        ∃ nd, v.getNode e.fromId = some nd ∧ stopHolds opts nd = false) →
      (∀ nd ∈ r.nodes, stopHolds opts nd = false) ∧
      (∀ nid ∈ r.path, ∃ nd, v.getNode nid = some nd ∧ stopHolds opts nd = false) ∧
      (∀ e ∈ r.edges, opts.direction = .forward →
        ∃ nd, v.getNode e.fromId = some nd ∧ stopHolds opts nd = false) := by
  intro fuel
  induction fuel with
  | zero =>
    intro stack visited nodes edges path r hr
    exact absurd hr (by simp [dfsLoop])
  | succ fuel ih =>
    intro stack visited nodes edges path r hr hN hP hE
    match stack with
    | [] =>
      simp only [dfsLoop] at hr
      injection hr with h
      subst h
      exact ⟨hN, hP, hE⟩
    | (cur, depth) :: stack2 =>
      simp only [dfsLoop] at hr
      by_cases h1 : visited.contains cur = true
      · rw [if_pos h1] at hr
        exact ih stack2 visited nodes edges path r hr hN hP hE
      · rw [if_neg h1] at hr
        by_cases h2 : opts.maxDepth ≥ 0 ∧ depth > opts.maxDepth
        · rw [if_pos h2] at hr
          exact ih stack2 visited nodes edges path r hr hN hP hE
        · rw [if_neg h2] at hr
          split at hr
          · exact absurd hr (by simp)
          · rename_i node hg
            by_cases h3 : stopHolds opts node = true
            · rw [if_pos h3] at hr
              exact ih stack2 (visited ++ [cur]) nodes edges path r hr hN hP hE
            · rw [if_neg h3] at hr
              have h3' : stopHolds opts node = false := by
                cases hh : stopHolds opts node
                · rfl
                · exact absurd hh h3
              refine ih _ _ _ _ _ r hr ?_ ?_ ?_
              · intro nd hnd
                by_cases ht : nodeTypeMatches opts node = true
                · rw [if_pos ht] at hnd
                  rcases List.mem_append.mp hnd with h0 | h0
                  · exact hN nd h0
                  · have : nd = node := by simpa using h0
                    subst this
                    exact h3'
                · rw [if_neg ht] at hnd
                  exact hN nd hnd
              · intro nid hnid
                by_cases ht : nodeTypeMatches opts node = true
                · rw [if_pos ht] at hnid
                  rcases List.mem_append.mp hnid with h0 | h0
                  · exact hP nid h0
                  · have : nid = cur := by simpa using h0
                    subst this
                    exact ⟨node, hg, h3'⟩
                · rw [if_neg ht] at hnid
                  exact hP nid hnid
              · intro e he hdir
                rcases dfsPush_edges_mem opts.direction cur depth (visited ++ [cur])
                    (filterEdgesByTypes opts.edgeTypes
                      (connectedOf v opts.direction cur)).reverse
                    (stack2, edges) e he with h0 | h0
                · exact hE e h0 hdir
                · rw [h0 hdir]
                  exact ⟨node, hg, h3'⟩

/-- C4, amended: when the stop predicate fires on a fetched node, the node
is not expanded — and it is also excluded from the returned node list and
path (the loop `continue`s before recording it); it is only marked
visited.  Equivalently, on every successful DFS run every returned node
(and every node named by the returned path) falsifies the stop predicate,
and in forward direction every returned edge leaves a node that falsifies
it. -/
theorem dfs_stop_prunes_and_excludes (v : StorageView) (opts : TraversalOptions)
    (start : String) (fuel : Nat) (r : TraversalResult)
    (hr : depthFirstSearch v start (some opts) fuel = .ok r) :
    (∀ nd ∈ r.nodes, stopHolds opts nd = false) ∧
    (∀ nid ∈ r.path, ∃ nd, v.getNode nid = some nd ∧ stopHolds opts nd = false) ∧
    (∀ e ∈ r.edges, opts.direction = .forward →
      ∃ nd, v.getNode e.fromId = some nd ∧ stopHolds opts nd = false) :=
  dfsLoop_stop_inv v opts fuel [(start, 0)] [] [] [] [] r hr
    (by simp) (by simp) (by simp)

/-- Witness: a two-node run in which the stop predicate fires on `m`;
the conclusions hold of the concrete result. -/
def stopView2 : StorageView :=
  mkView [{ id := "s", type := "t" }, { id := "m", type := "t" }]
    [{ id := "sm", type := "x", fromId := "s", toId := "m" }]
def stopOpts2 : TraversalOptions := { stopCondition := some (fun nd => nd.id = "m") }

theorem dfs_stop_prunes_and_excludes_witness :
    (∀ nd ∈ (⟨[{ id := "s", type := "t" }],
        [{ id := "sm", type := "x", fromId := "s", toId := "m" }],
        ["s"], 0⟩ : TraversalResult).nodes, stopHolds stopOpts2 nd = false) ∧
    (∀ nid ∈ (⟨[{ id := "s", type := "t" }],
        [{ id := "sm", type := "x", fromId := "s", toId := "m" }],
        ["s"], 0⟩ : TraversalResult).path,
      ∃ nd, stopView2.getNode nid = some nd ∧ stopHolds stopOpts2 nd = false) ∧
    (∀ e ∈ (⟨[{ id := "s", type := "t" }],
        [{ id := "sm", type := "x", fromId := "s", toId := "m" }],
        ["s"], 0⟩ : TraversalResult).edges, stopOpts2.direction = .forward →
      ∃ nd, stopView2.getNode e.fromId = some nd ∧ stopHolds stopOpts2 nd = false) :=
  dfs_stop_prunes_and_excludes stopView2 stopOpts2 "s" 10
    ⟨[{ id := "s", type := "t" }],
      [{ id := "sm", type := "x", fromId := "s", toId := "m" }], ["s"], 0⟩ rfl

/-! ## C8 — delete_node frame effect: store lemmas -/

theorem kvGetEntry_nil (k' : String) : kvGetEntry [] k' = none := rfl

theorem kvGetEntry_kvDelete (s : Store) (k k' : String) :
    kvGetEntry (kvDelete s k) k' = if k' = k then none else kvGetEntry s k' := by
  induction s with
  | nil => simp [kvDelete, kvGetEntry_nil]
  | cons kv rest ih =>
    obtain ⟨k1, e1⟩ := kv
    by_cases h1 : k1 = k
    · rw [kvDelete_cons_eq _ _ _ _ h1, ih]
      by_cases h2 : k' = k
      · simp [h2]
      · have h3 : ¬ k1 = k' := by rw [h1]; exact fun he => h2 he.symm
        simp [h2, kvGetEntry_cons, h3]
    · rw [kvDelete_cons_ne _ _ _ _ h1]
      by_cases h4 : k1 = k'
      · subst h4
        have hne : ¬ k1 = k := h1
        simp [kvGetEntry_cons, hne]
      · simp [kvGetEntry_cons, h4, ih]

theorem kvGet_eq_entry (s : Store) (k : String) :
    kvGet s k = (kvGetEntry s k).map Entry.val := by
  unfold kvGet kvGetEntry
  cases s.find? (fun kv => kv.1 = k) <;> rfl

theorem mem_of_kvGetEntry {s : Store} {k : String} {ent : Entry}
    (h : kvGetEntry s k = some ent) : (k, ent) ∈ s := by
  unfold kvGetEntry at h
  cases hf : s.find? (fun kv => kv.1 = k) with
  | none => rw [hf] at h; exact absurd h (by simp)
  | some kv =>
    rw [hf] at h
    have hm := List.mem_of_find?_eq_some hf
    have hp := List.find?_some hf
    simp at hp h
    have hpair : kv = (k, ent) := by
      obtain ⟨k0, e0⟩ := kv
      simp at hp h
      rw [hp, h]
    rwa [hpair] at hm

theorem kvGetEntry_ne_none_of_mem {s : Store} {kv : String × Entry}
    (h : kv ∈ s) : kvGetEntry s kv.1 ≠ none := by
  intro hn
  unfold kvGetEntry at hn
  cases hf : s.find? (fun kv2 => kv2.1 = kv.1) with
  | some kv2 => rw [hf] at hn; simp at hn
  | none =>
    have := List.find?_eq_none.mp hf kv h
    simp at this

theorem kvGetEntry_of_mem {s : Store} (hnd : (s.map (·.1)).Nodup) {k : String}
    {ent : Entry} (h : (k, ent) ∈ s) : kvGetEntry s k = some ent := by
  induction s with
  | nil => cases h
  | cons kv rest ih =>
    obtain ⟨k1, e1⟩ := kv
    simp only [List.map_cons, List.nodup_cons] at hnd
    rcases List.mem_cons.mp h with h0 | h0
    · have hk : k1 = k := (congrArg Prod.fst h0).symm
      have he : e1 = ent := (congrArg Prod.snd h0).symm
      subst hk; subst he
      simp [kvGetEntry_cons]
    · have hk : k1 ≠ k := by
        intro he; subst he
        exact hnd.1 (List.mem_map.mpr ⟨(k1, ent), h0, rfl⟩)
      rw [kvGetEntry_cons, if_neg hk]
      exact ih hnd.2 h0

theorem mem_kvDelete {s : Store} {k : String} {kv : String × Entry} :
    kv ∈ kvDelete s k ↔ kv ∈ s ∧ kv.1 ≠ k := by
  simp [kvDelete, List.mem_filter]

theorem kvDelete_sublist (s : Store) (k : String) : (kvDelete s k).Sublist s :=
  List.filter_sublist s

/-- The four keys `DeleteEdge` removes for edge id `eid` whose fetched
record is `e`. -/
def delKeys (g eid : String) (e : EdgeRec) : List String :=
  [encodeEdgeKey g eid, encodeEdgeTypeIndexKey g e.type eid,
   encodeNodeOutEdgeIndexKey g e.fromId eid, encodeNodeInEdgeIndexKey g e.toId eid]

/-- The edge-deletion cascade succeeds when every pending id resolves, it
only ever removes the four schema keys of the ids it was given, and it
does remove all four keys of every id it was given. -/
theorem foldDeleteEdges_ok (g : String) (ids : List String) :
    ∀ (t : Store), ids.Nodup →
    (∀ eid ∈ ids, ∃ e : EdgeRec, kvGet t (encodeEdgeKey g eid) = some (.edge e)) →
    ∃ t', foldDeleteEdges t g ids = (none, t') ∧
      t'.Sublist t ∧
      (∀ k, kvGetEntry t' k = kvGetEntry t k ∨
        (kvGetEntry t' k = none ∧ ∃ eid ∈ ids, ∃ e : EdgeRec,
          kvGet t (encodeEdgeKey g eid) = some (.edge e) ∧ k ∈ delKeys g eid e)) ∧
      (∀ eid ∈ ids, ∀ e : EdgeRec, kvGet t (encodeEdgeKey g eid) = some (.edge e) →
        ∀ k ∈ delKeys g eid e, kvGetEntry t' k = none) := by
  induction ids with
  | nil =>
    intro t _ _
    exact ⟨t, rfl, List.Sublist.refl t, fun k => Or.inl rfl, by simp⟩
  | cons eid rest ih =>
    intro t hnd hres
    obtain ⟨e, he⟩ := hres eid (List.mem_cons_self eid rest)
    set t1 := kvDelete (kvDelete (kvDelete (kvDelete t (encodeEdgeKey g eid))
        (encodeEdgeTypeIndexKey g e.type eid)) (encodeNodeOutEdgeIndexKey g e.fromId eid))
        (encodeNodeInEdgeIndexKey g e.toId eid) with ht1def
    have hdel : deleteEdgeTx t g eid = .ok t1 := by
      rw [ht1def]; simp [deleteEdgeTx, getEdgeSE, he]
    have ht1sub : t1.Sublist t :=
      (kvDelete_sublist _ _).trans ((kvDelete_sublist _ _).trans
        ((kvDelete_sublist _ _).trans (kvDelete_sublist _ _)))
    have ht1 : ∀ k, kvGetEntry t1 k =
        if k ∈ delKeys g eid e then none else kvGetEntry t k := by
      intro k
      rw [ht1def]
      simp only [kvGetEntry_kvDelete, delKeys, List.mem_cons, List.not_mem_nil, or_false]
      by_cases h1 : k = encodeEdgeKey g eid <;>
      by_cases h2 : k = encodeEdgeTypeIndexKey g e.type eid <;>
      by_cases h3 : k = encodeNodeOutEdgeIndexKey g e.fromId eid <;>
      by_cases h4 : k = encodeNodeInEdgeIndexKey g e.toId eid <;>
      simp [h1, h2, h3, h4]
    have hpres : ∀ eid' ∈ rest,
        kvGet t1 (encodeEdgeKey g eid') = kvGet t (encodeEdgeKey g eid') := by
      intro eid' hmem
      have hne : eid' ≠ eid := fun h => (List.nodup_cons.mp hnd).1 (h ▸ hmem)
      have hkne : ¬ (encodeEdgeKey g eid' = encodeEdgeKey g eid) :=
        fun h => hne (edgeKey_inj h)
      rw [ht1def]
      simp [kvGet_kvDelete, ne_edgeKey_inKey, ne_edgeKey_outKey,
        ne_edgeKey_edgeTypeKey, hkne]
    have hres1 : ∀ eid' ∈ rest, ∃ e' : EdgeRec,
        kvGet t1 (encodeEdgeKey g eid') = some (.edge e') := by
      intro eid' hmem
      obtain ⟨e', he'⟩ := hres eid' (List.mem_cons_of_mem _ hmem)
      exact ⟨e', by rw [hpres eid' hmem]; exact he'⟩
    obtain ⟨t', hfold, hsub, hdich, hall⟩ := ih t1 (List.nodup_cons.mp hnd).2 hres1
    refine ⟨t', ?_, hsub.trans ht1sub, ?_, ?_⟩
    · show foldDeleteEdges t g (eid :: rest) = (none, t')
      rw [foldDeleteEdges, hdel]
      exact hfold
    · intro k
      rcases hdich k with hk | ⟨hnone, eid', hmem', e', hres', hk'⟩
      · by_cases hmemk : k ∈ delKeys g eid e
        · exact Or.inr ⟨by rw [hk, ht1 k, if_pos hmemk], eid,
            List.mem_cons_self eid rest, e, he, hmemk⟩
        · exact Or.inl (by rw [hk, ht1 k, if_neg hmemk])
      · exact Or.inr ⟨hnone, eid', List.mem_cons_of_mem _ hmem', e',
          (hpres eid' hmem').symm.trans hres', hk'⟩
    · intro eid0 hmem0 e0 hres0 k hk0
      rcases List.mem_cons.mp hmem0 with h0 | h0
      · subst h0
        have he0 : e0 = e := by
          have h' := hres0.symm.trans he
          simp at h'
          exact h'
        subst he0
        rcases hdich k with hk | ⟨hnone, _⟩
        · rw [hk, ht1 k, if_pos hk0]
        · exact hnone
      · have hres0' : kvGet t1 (encodeEdgeKey g eid0) = some (.edge e0) :=
          (hpres eid0 h0).trans hres0
        exact hall eid0 h0 e0 hres0' k hk0

/-- Stage 1 of `DeleteNode`: the record, type-index, and expiry-index
deletions, characterized uniformly over the two expiry cases. -/
theorem deleteNode_stage1 (s : Store) (g n : String) (node : NodeRec)
    (hnode : getNodeSE s g n = .ok node) :
    ∃ s3 : Store,
      deleteNodeTxP s g n = (match foldDeleteEdges s3 g
          ((kvEntriesUnder s3 (outPref g n)).map (fun kv => valStr kv.2.val)) with
        | (some m, s2) => (some m, s2)
        | (none, s2) => foldDeleteEdges s2 g
            ((kvEntriesUnder s2 (inPref g n)).map (fun kv => valStr kv.2.val))) ∧
      s3.Sublist s ∧
      (∀ k, kvGetEntry s3 k = kvGetEntry s k ∨
        (kvGetEntry s3 k = none ∧ (k = encodeNodeKey g n ∨
          k = encodeNodeTypeIndexKey g node.type n ∨
          ∃ ts, k = encodeExpiryIndexKey g node.id ts))) := by
  cases hexp : node.expiresAt with
  | none =>
    refine ⟨kvDelete (kvDelete s (encodeNodeKey g n)) (encodeNodeTypeIndexKey g node.type n),
      ?_, (kvDelete_sublist _ _).trans (kvDelete_sublist _ _), ?_⟩
    · unfold deleteNodeTxP
      rw [hnode]
      simp [hexp]
    · intro k
      rw [kvGetEntry_kvDelete, kvGetEntry_kvDelete]
      by_cases h1 : k = encodeNodeTypeIndexKey g node.type n
      · refine Or.inr ⟨by rw [if_pos h1], Or.inr (Or.inl h1)⟩
      · rw [if_neg h1]
        by_cases h2 : k = encodeNodeKey g n
        · refine Or.inr ⟨by rw [if_pos h2], Or.inl h2⟩
        · rw [if_neg h2]; exact Or.inl rfl
  | some ts =>
    refine ⟨kvDelete (kvDelete (kvDelete s (encodeNodeKey g n))
        (encodeNodeTypeIndexKey g node.type n)) (encodeExpiryIndexKey g node.id ts),
      ?_, (kvDelete_sublist _ _).trans
        ((kvDelete_sublist _ _).trans (kvDelete_sublist _ _)), ?_⟩
    · unfold deleteNodeTxP
      rw [hnode]
      simp [hexp]
    · intro k
      rw [kvGetEntry_kvDelete, kvGetEntry_kvDelete, kvGetEntry_kvDelete]
      by_cases h1 : k = encodeExpiryIndexKey g node.id ts
      · refine Or.inr ⟨by rw [if_pos h1], Or.inr (Or.inr ⟨ts, h1⟩)⟩
      · rw [if_neg h1]
        by_cases h2 : k = encodeNodeTypeIndexKey g node.type n
        · refine Or.inr ⟨by rw [if_pos h2], Or.inr (Or.inl h2)⟩
        · rw [if_neg h2]
          by_cases h3 : k = encodeNodeKey g n
          · refine Or.inr ⟨by rw [if_pos h3], Or.inl h3⟩
          · rw [if_neg h3]; exact Or.inl rfl

/-- Coherence of one outgoing-adjacency entry of node `n`: its value
resolves to an edge whose source is `n` and whose (colon-free) target
names the entry key per the schema. -/
def outEntryOK (s : Store) (g n : String) (kv : String × Entry) : Bool :=
  match kvGet s (encodeEdgeKey g (valStr kv.2.val)) with
  | some (.edge e) =>
      decide (e.fromId = n) && decide (noColon e.toId) &&
      decide (kv.1 = encodeNodeOutEdgeIndexKey g n (valStr kv.2.val))
  | _ => false

/-- Coherence of one incoming-adjacency entry of node `n`. -/
def inEntryOK (s : Store) (g n : String) (kv : String × Entry) : Bool :=
  match kvGet s (encodeEdgeKey g (valStr kv.2.val)) with
  | some (.edge e) =>
      decide (e.toId = n) &&
      decide (kv.1 = encodeNodeInEdgeIndexKey g n (valStr kv.2.val))
  | _ => false

/-- Coherence of one stored edge record with respect to node `n`: when an
endpoint is `n`, the corresponding adjacency-index entry is present. -/
def edgeRecEntryOK (s : Store) (g n : String) (kv : String × Entry) : Bool :=
  match kv.2.val with
  | .edge e =>
      if kv.1 = encodeEdgeKey g e.id then
        (if e.fromId = n then
          decide (kvGet s (encodeNodeOutEdgeIndexKey g n e.id) = some (.str e.id))
         else true) &&
        (if e.toId = n then
          decide (kvGet s (encodeNodeInEdgeIndexKey g n e.id) = some (.str e.id))
         else true)
      else true
  | _ => true

theorem edgeRecEntryOK_spec {s : Store} {g n : String} {ent : Entry}
    {e : EdgeRec} (hval : ent.val = .edge e)
    (h : edgeRecEntryOK s g n (encodeEdgeKey g e.id, ent) = true) :
    (e.fromId = n → kvGet s (encodeNodeOutEdgeIndexKey g n e.id) = some (.str e.id)) ∧
    (e.toId = n → kvGet s (encodeNodeInEdgeIndexKey g n e.id) = some (.str e.id)) := by
  simp only [edgeRecEntryOK, hval, eq_self_iff_true, if_true] at h
  constructor
  · intro hf
    rw [if_pos hf] at h
    simp only [Bool.and_eq_true, decide_eq_true_eq] at h
    exact h.1
  · intro ht
    rw [if_pos ht] at h
    simp only [Bool.and_eq_true, decide_eq_true_eq] at h
    exact h.2

/-- C8: after a successful `delete_node(g, n)` no edge incident on `n`
remains retrievable, while every other node and every edge not incident
on `n` keep their exact stored entries.  The hypotheses are the
index-coherence invariants the storage layer maintains: unique keys, the
adjacency entries of `n` resolve to incident edges sitting at their schema
keys, and every incident edge record is indexed. -/
theorem delete_node_frame (s : Store) (g n : String) (node : NodeRec)
    (hkeys : (s.map Prod.fst).Nodup)
    (hncol : noColon n)
    (hnode : getNodeSE s g n = .ok node)
    (hout : ∀ kv ∈ kvEntriesUnder s (outPref g n), outEntryOK s g n kv = true)
    (hin : ∀ kv ∈ kvEntriesUnder s (inPref g n), inEntryOK s g n kv = true)
    (hrec : ∀ kv ∈ s, edgeRecEntryOK s g n kv = true) :
    ∃ s', deleteNodeTxP s g n = (none, s') ∧
      (∀ (e : EdgeRec) (ent : Entry), (encodeEdgeKey g e.id, ent) ∈ s →
        ent.val = .edge e → (e.fromId = n ∨ e.toId = n) →
        getEdgeSE s' g e.id = .error ("edge not found: " ++ e.id)) ∧
      (∀ m, m ≠ n →
        kvGetEntry s' (encodeNodeKey g m) = kvGetEntry s (encodeNodeKey g m)) ∧
      (∀ (e : EdgeRec) (ent : Entry), (encodeEdgeKey g e.id, ent) ∈ s →
        ent.val = .edge e → e.fromId ≠ n → e.toId ≠ n →
        kvGetEntry s' (encodeEdgeKey g e.id) = some ent) := by
  obtain ⟨s3, heq, hs3sub, hs3dich⟩ := deleteNode_stage1 s g n node hnode
  have hpresE3 : ∀ eid, kvGetEntry s3 (encodeEdgeKey g eid)
      = kvGetEntry s (encodeEdgeKey g eid) := by
    intro eid
    rcases hs3dich (encodeEdgeKey g eid) with h | ⟨_, h | h | ⟨ts, h⟩⟩
    · exact h
    · exact absurd h (Ne.symm (ne_nodeKey_edgeKey g n g eid))
    · exact absurd h (ne_edgeKey_nodeTypeKey g eid g node.type n)
    · exact absurd h (ne_edgeKey_expiryKey g eid g node.id ts)
  have hgetE3 : ∀ eid, kvGet s3 (encodeEdgeKey g eid)
      = kvGet s (encodeEdgeKey g eid) := by
    intro eid; rw [kvGet_eq_entry, kvGet_eq_entry, hpresE3]
  have hpresOut3 : ∀ x eid, kvGetEntry s3 (encodeNodeOutEdgeIndexKey g x eid)
      = kvGetEntry s (encodeNodeOutEdgeIndexKey g x eid) := by
    intro x eid
    rcases hs3dich (encodeNodeOutEdgeIndexKey g x eid) with h | ⟨_, h | h | ⟨ts, h⟩⟩
    · exact h
    · exact absurd h (Ne.symm (ne_nodeKey_outKey g n g x eid))
    · exact absurd h (ne_outKey_nodeTypeKey g x eid g node.type n)
    · exact absurd h (ne_outKey_expiryKey g x eid g node.id ts)
  have hpresIn3 : ∀ x eid, kvGetEntry s3 (encodeNodeInEdgeIndexKey g x eid)
      = kvGetEntry s (encodeNodeInEdgeIndexKey g x eid) := by
    intro x eid
    rcases hs3dich (encodeNodeInEdgeIndexKey g x eid) with h | ⟨_, h | h | ⟨ts, h⟩⟩
    · exact h
    · exact absurd h (Ne.symm (ne_nodeKey_inKey g n g x eid))
    · exact absurd h (ne_inKey_nodeTypeKey g x eid g node.type n)
    · exact absurd h (ne_inKey_expiryKey g x eid g node.id ts)
  have houtres : ∀ kv ∈ kvEntriesUnder s3 (outPref g n), ∃ e : EdgeRec,
      kvGet s (encodeEdgeKey g (valStr kv.2.val)) = some (.edge e) ∧
      e.fromId = n ∧ noColon e.toId ∧
      kv.1 = encodeNodeOutEdgeIndexKey g n (valStr kv.2.val) := by
    intro kv hkv
    have hkvS : kv ∈ kvEntriesUnder s (outPref g n) := by
      rcases mem_kvEntriesUnder.mp hkv with ⟨hm, hp⟩
      exact mem_kvEntriesUnder.mpr ⟨hs3sub.subset hm, hp⟩
    have h := hout kv hkvS
    unfold outEntryOK at h
    split at h
    · rename_i e hg2
      simp only [Bool.and_eq_true, decide_eq_true_eq] at h
      exact ⟨e, hg2, h.1.1, h.1.2, h.2⟩
    all_goals simp at h
  have houtNodup :
      ((kvEntriesUnder s3 (outPref g n)).map (fun kv => valStr kv.2.val)).Nodup := by
    have hkeys3 : ((kvEntriesUnder s3 (outPref g n)).map Prod.fst).Nodup :=
      hkeys.sublist (((List.filter_sublist s3).trans hs3sub).map Prod.fst)
    have hshape : (kvEntriesUnder s3 (outPref g n)).map Prod.fst
        = ((kvEntriesUnder s3 (outPref g n)).map (fun kv => valStr kv.2.val)).map
            (encodeNodeOutEdgeIndexKey g n) := by
      rw [List.map_map]
      refine List.map_congr_left ?_
      intro kv hkv
      obtain ⟨e, _, _, _, hsh⟩ := houtres kv hkv
      exact hsh
    rw [hshape] at hkeys3
    exact hkeys3.of_map
  obtain ⟨s4, hfold4, hsub4, hdich4, hall4⟩ := foldDeleteEdges_ok g
    ((kvEntriesUnder s3 (outPref g n)).map (fun kv => valStr kv.2.val)) s3 houtNodup
    (by
      intro eid hm
      rcases List.mem_map.mp hm with ⟨kv, hkv, rfl⟩
      obtain ⟨e, he, _, _, _⟩ := houtres kv hkv
      exact ⟨e, by rw [hgetE3]; exact he⟩)
  have houtId : ∀ eid ∈ (kvEntriesUnder s3 (outPref g n)).map (fun kv => valStr kv.2.val),
      ∀ e' : EdgeRec, kvGet s3 (encodeEdgeKey g eid) = some (.edge e') →
      e'.fromId = n ∧ noColon e'.toId := by
    intro eid hm e' hres'
    rcases List.mem_map.mp hm with ⟨kv, hkv, rfl⟩
    obtain ⟨e, he, hfrom, hcol, _⟩ := houtres kv hkv
    have he3 : kvGet s3 (encodeEdgeKey g (valStr kv.2.val)) = some (.edge e) := by
      rw [hgetE3]; exact he
    have hee : e = e' := by
      have h' := he3.symm.trans hres'
      simp at h'
      exact h'
    subst hee
    exact ⟨hfrom, hcol⟩
  have hinres4 : ∀ kv ∈ kvEntriesUnder s4 (inPref g n), ∃ e : EdgeRec,
      kvGet s4 (encodeEdgeKey g (valStr kv.2.val)) = some (.edge e) ∧ e.toId = n ∧
      kv.1 = encodeNodeInEdgeIndexKey g n (valStr kv.2.val) := by
    intro kv hkv
    have hkvS : kv ∈ kvEntriesUnder s (inPref g n) := by
      rcases mem_kvEntriesUnder.mp hkv with ⟨hm, hp⟩
      exact mem_kvEntriesUnder.mpr ⟨hs3sub.subset (hsub4.subset hm), hp⟩
    have h := hin kv hkvS
    unfold inEntryOK at h
    split at h
    · rename_i e hg2
      simp only [Bool.and_eq_true, decide_eq_true_eq] at h
      obtain ⟨hto, hsh⟩ := h
      have he3 : kvGet s3 (encodeEdgeKey g (valStr kv.2.val)) = some (.edge e) := by
        rw [hgetE3]; exact hg2
      rcases hdich4 (encodeEdgeKey g (valStr kv.2.val)) with
        h4 | ⟨hnone4, eid', hm', e', hres', hk'⟩
      · exact ⟨e, by rw [kvGet_eq_entry, h4, ← kvGet_eq_entry]; exact he3, hto, hsh⟩
      · exfalso
        simp only [delKeys, List.mem_cons, List.not_mem_nil, or_false] at hk'
        rcases hk' with hk' | hk' | hk' | hk'
        · have hid : valStr kv.2.val = eid' := edgeKey_inj hk'
          rw [← hid] at hres' hm'
          have hee : e' = e := by
            have h' := hres'.symm.trans he3
            simp at h'
            exact h'
          subst hee
          have hdelk := hall4 _ hm' e' hres'
            (encodeNodeInEdgeIndexKey g e'.toId (valStr kv.2.val)) (by simp [delKeys])
          rw [hto] at hdelk
          have hkvmem : kv ∈ s4 := (mem_kvEntriesUnder.mp hkv).1
          have hne := kvGetEntry_ne_none_of_mem hkvmem
          rw [hsh] at hne
          exact hne hdelk
        · exact absurd hk' (ne_edgeKey_edgeTypeKey _ _ _ _ _)
        · exact absurd hk' (ne_edgeKey_outKey _ _ _ _ _)
        · exact absurd hk' (ne_edgeKey_inKey _ _ _ _ _)
    all_goals simp at h
  have hinNodup :
      ((kvEntriesUnder s4 (inPref g n)).map (fun kv => valStr kv.2.val)).Nodup := by
    have hkeys4 : ((kvEntriesUnder s4 (inPref g n)).map Prod.fst).Nodup :=
      hkeys.sublist (((List.filter_sublist s4).trans (hsub4.trans hs3sub)).map Prod.fst)
    have hshape : (kvEntriesUnder s4 (inPref g n)).map Prod.fst
        = ((kvEntriesUnder s4 (inPref g n)).map (fun kv => valStr kv.2.val)).map
            (encodeNodeInEdgeIndexKey g n) := by
      rw [List.map_map]
      refine List.map_congr_left ?_
      intro kv hkv
      obtain ⟨e, _, _, hsh⟩ := hinres4 kv hkv
      exact hsh
    rw [hshape] at hkeys4
    exact hkeys4.of_map
  obtain ⟨s5, hfold5, hsub5, hdich5, hall5⟩ := foldDeleteEdges_ok g
    ((kvEntriesUnder s4 (inPref g n)).map (fun kv => valStr kv.2.val)) s4 hinNodup
    (by
      intro eid hm
      rcases List.mem_map.mp hm with ⟨kv, hkv, rfl⟩
      obtain ⟨e, he, _, _⟩ := hinres4 kv hkv
      exact ⟨e, he⟩)
  have hinId : ∀ eid ∈ (kvEntriesUnder s4 (inPref g n)).map (fun kv => valStr kv.2.val),
      ∀ e' : EdgeRec, kvGet s4 (encodeEdgeKey g eid) = some (.edge e') → e'.toId = n := by
    intro eid hm e' hres'
    rcases List.mem_map.mp hm with ⟨kv, hkv, rfl⟩
    obtain ⟨e, he, hto, _⟩ := hinres4 kv hkv
    have hee : e = e' := by
      have h' := he.symm.trans hres'
      simp at h'
      exact h'
    subst hee
    exact hto
  refine ⟨s5, ?_, ?_, ?_, ?_⟩
  · rw [heq, hfold4]
    exact hfold5
  · intro e ent hmem hval hinc
    have hentS : kvGetEntry s (encodeEdgeKey g e.id) = some ent :=
      kvGetEntry_of_mem hkeys hmem
    have hresS : kvGet s (encodeEdgeKey g e.id) = some (.edge e) := by
      rw [kvGet_eq_entry, hentS, Option.map_some', hval]
    have hres3 : kvGet s3 (encodeEdgeKey g e.id) = some (.edge e) := by
      rw [hgetE3]; exact hresS
    have hOK2 := edgeRecEntryOK_spec hval (hrec (encodeEdgeKey g e.id, ent) hmem)
    have hnone5 : kvGetEntry s5 (encodeEdgeKey g e.id) = none := by
      by_cases hfrom : e.fromId = n
      · have hidx := hOK2.1 hfrom
        obtain ⟨ent2, hment2, hvent2⟩ := mem_of_kvGet hidx
        have hent23 : kvGetEntry s3 (encodeNodeOutEdgeIndexKey g n e.id) = some ent2 := by
          rw [hpresOut3]
          exact kvGetEntry_of_mem hkeys hment2
        have hmem3 : (encodeNodeOutEdgeIndexKey g n e.id, ent2)
            ∈ kvEntriesUnder s3 (outPref g n) := by
          refine mem_kvEntriesUnder.mpr ⟨mem_of_kvGetEntry hent23, ?_⟩
          rw [outKey_eq_pref_append]
          exact strHasPref_append _ _
        have hidmem : e.id
            ∈ (kvEntriesUnder s3 (outPref g n)).map (fun kv => valStr kv.2.val) :=
          List.mem_map.mpr ⟨_, hmem3, by rw [hvent2]; rfl⟩
        have h4 := hall4 _ hidmem e hres3 (encodeEdgeKey g e.id) (by simp [delKeys])
        rcases hdich5 (encodeEdgeKey g e.id) with h5 | ⟨h5, _⟩
        · rw [h5]; exact h4
        · exact h5
      · have hto : e.toId = n := hinc.resolve_left hfrom
        have hidx := hOK2.2 hto
        obtain ⟨ent2, hment2, hvent2⟩ := mem_of_kvGet hidx
        have hent23 : kvGetEntry s3 (encodeNodeInEdgeIndexKey g n e.id) = some ent2 := by
          rw [hpresIn3]
          exact kvGetEntry_of_mem hkeys hment2
        have hent24 : kvGetEntry s4 (encodeNodeInEdgeIndexKey g n e.id) = some ent2 := by
          rcases hdich4 (encodeNodeInEdgeIndexKey g n e.id) with
            h4 | ⟨_, eid', hm', e', hres', hk'⟩
          · rw [h4]; exact hent23
          · exfalso
            simp only [delKeys, List.mem_cons, List.not_mem_nil, or_false] at hk'
            rcases hk' with hk' | hk' | hk' | hk'
            · exact absurd hk'.symm (ne_edgeKey_inKey _ _ _ _ _)
            · exact absurd hk'.symm (ne_edgeTypeKey_inKey _ _ _ _ _ _)
            · exact absurd hk'.symm (ne_outKey_inKey _ _ _ _ _ _)
            · obtain ⟨hfrom', hcol'⟩ := houtId eid' hm' e' hres'
              obtain ⟨hn_eq, hid_eq⟩ := inKey_inj hncol hcol' hk'
              rw [← hid_eq] at hres'
              have hee : e' = e := by
                have h' := hres'.symm.trans hres3
                simp at h'
                exact h'
              rw [hee] at hfrom'
              exact hfrom hfrom'
        have hmem4 : (encodeNodeInEdgeIndexKey g n e.id, ent2)
            ∈ kvEntriesUnder s4 (inPref g n) := by
          refine mem_kvEntriesUnder.mpr ⟨mem_of_kvGetEntry hent24, ?_⟩
          rw [inKey_eq_pref_append]
          exact strHasPref_append _ _
        have hidmem : e.id
            ∈ (kvEntriesUnder s4 (inPref g n)).map (fun kv => valStr kv.2.val) :=
          List.mem_map.mpr ⟨_, hmem4, by rw [hvent2]; rfl⟩
        have hres4 : kvGet s4 (encodeEdgeKey g e.id) = some (.edge e) := by
          rcases hdich4 (encodeEdgeKey g e.id) with
            h4 | ⟨_, eid', hm', e', hres', hk'⟩
          · rw [kvGet_eq_entry, h4, ← kvGet_eq_entry]; exact hres3
          · exfalso
            simp only [delKeys, List.mem_cons, List.not_mem_nil, or_false] at hk'
            rcases hk' with hk' | hk' | hk' | hk'
            · have hid : e.id = eid' := edgeKey_inj hk'
              rw [← hid] at hres' hm'
              obtain ⟨hfrom', _⟩ := houtId _ hm' e' hres'
              have hee : e' = e := by
                have h' := hres'.symm.trans hres3
                simp at h'
                exact h'
              rw [hee] at hfrom'
              exact hfrom hfrom'
            · exact absurd hk' (ne_edgeKey_edgeTypeKey _ _ _ _ _)
            · exact absurd hk' (ne_edgeKey_outKey _ _ _ _ _)
            · exact absurd hk' (ne_edgeKey_inKey _ _ _ _ _)
        exact hall5 _ hidmem e hres4 (encodeEdgeKey g e.id) (by simp [delKeys])
    simp [getEdgeSE, kvGet_eq_entry, hnone5]
  · intro m hm
    have h3 : kvGetEntry s3 (encodeNodeKey g m) = kvGetEntry s (encodeNodeKey g m) := by
      rcases hs3dich (encodeNodeKey g m) with h | ⟨_, h | h | ⟨ts, h⟩⟩
      · exact h
      · exact absurd (nodeKey_inj h) hm
      · exact absurd h (ne_nodeKey_nodeTypeKey _ _ _ _ _)
      · exact absurd h (ne_nodeKey_expiryKey _ _ _ _ _)
    have h4 : kvGetEntry s4 (encodeNodeKey g m) = kvGetEntry s3 (encodeNodeKey g m) := by
      rcases hdich4 (encodeNodeKey g m) with h | ⟨_, eid', _, e', _, hk'⟩
      · exact h
      · exfalso
        simp only [delKeys, List.mem_cons, List.not_mem_nil, or_false] at hk'
        rcases hk' with hk' | hk' | hk' | hk'
        · exact absurd hk' (ne_nodeKey_edgeKey _ _ _ _)
        · exact absurd hk' (ne_nodeKey_edgeTypeKey _ _ _ _ _)
        · exact absurd hk' (ne_nodeKey_outKey _ _ _ _ _)
        · exact absurd hk' (ne_nodeKey_inKey _ _ _ _ _)
    have h5 : kvGetEntry s5 (encodeNodeKey g m) = kvGetEntry s4 (encodeNodeKey g m) := by
      rcases hdich5 (encodeNodeKey g m) with h | ⟨_, eid', _, e', _, hk'⟩
      · exact h
      · exfalso
        simp only [delKeys, List.mem_cons, List.not_mem_nil, or_false] at hk'
        rcases hk' with hk' | hk' | hk' | hk'
        · exact absurd hk' (ne_nodeKey_edgeKey _ _ _ _)
        · exact absurd hk' (ne_nodeKey_edgeTypeKey _ _ _ _ _)
        · exact absurd hk' (ne_nodeKey_outKey _ _ _ _ _)
        · exact absurd hk' (ne_nodeKey_inKey _ _ _ _ _)
    rw [h5, h4, h3]
  · intro e ent hmem hval hfrom hto
    have hentS : kvGetEntry s (encodeEdgeKey g e.id) = some ent :=
      kvGetEntry_of_mem hkeys hmem
    have hres3 : kvGet s3 (encodeEdgeKey g e.id) = some (.edge e) := by
      rw [hgetE3, kvGet_eq_entry, hentS, Option.map_some', hval]
    have h4 : kvGetEntry s4 (encodeEdgeKey g e.id)
        = kvGetEntry s3 (encodeEdgeKey g e.id) := by
      rcases hdich4 (encodeEdgeKey g e.id) with h | ⟨_, eid', hm', e', hres', hk'⟩
      · exact h
      · exfalso
        simp only [delKeys, List.mem_cons, List.not_mem_nil, or_false] at hk'
        rcases hk' with hk' | hk' | hk' | hk'
        · have hid : e.id = eid' := edgeKey_inj hk'
          rw [← hid] at hres' hm'
          obtain ⟨hfrom', _⟩ := houtId _ hm' e' hres'
          have hee : e' = e := by
            have h' := hres'.symm.trans hres3
            simp at h'
            exact h'
          rw [hee] at hfrom'
          exact hfrom hfrom'
        · exact absurd hk' (ne_edgeKey_edgeTypeKey _ _ _ _ _)
        · exact absurd hk' (ne_edgeKey_outKey _ _ _ _ _)
        · exact absurd hk' (ne_edgeKey_inKey _ _ _ _ _)
    have hres4 : kvGet s4 (encodeEdgeKey g e.id) = some (.edge e) := by
      rw [kvGet_eq_entry, h4, ← kvGet_eq_entry]; exact hres3
    have h5 : kvGetEntry s5 (encodeEdgeKey g e.id)
        = kvGetEntry s4 (encodeEdgeKey g e.id) := by
      rcases hdich5 (encodeEdgeKey g e.id) with h | ⟨_, eid', hm', e', hres', hk'⟩
      · exact h
      · exfalso
        simp only [delKeys, List.mem_cons, List.not_mem_nil, or_false] at hk'
        rcases hk' with hk' | hk' | hk' | hk'
        · have hid : e.id = eid' := edgeKey_inj hk'
          rw [← hid] at hres' hm'
          have hto' := hinId _ hm' e' hres'
          have hee : e' = e := by
            have h' := hres'.symm.trans hres4
            simp at h'
            exact h'
          rw [hee] at hto'
          exact hto hto'
        · exact absurd hk' (ne_edgeKey_edgeTypeKey _ _ _ _ _)
        · exact absurd hk' (ne_edgeKey_outKey _ _ _ _ _)
        · exact absurd hk' (ne_edgeKey_inKey _ _ _ _ _)
    rw [h5, h4, hpresE3]
    exact hentS

/-- Graph `g` with nodes `a`, `b`, `c` and edges `aa : a->a` (self-loop),
`ab : a->b`, `ca : c->a`, and `bc : b->c` (not incident on `a`). -/
def c8Store : Store :=
  okStore (do
    let s1 ← createNodeTx [] "g" { id := "a", type := "t" }
    let s2 ← createNodeTx s1 "g" { id := "b", type := "t" }
    let s3 ← createNodeTx s2 "g" { id := "c", type := "t" }
    let s4 ← createEdgeTx s3 "now" "g" { id := "aa", type := "x", fromId := "a", toId := "a" }
    let s5 ← createEdgeTx s4 "now" "g" { id := "ab", type := "x", fromId := "a", toId := "b" }
    let s6 ← createEdgeTx s5 "now" "g" { id := "ca", type := "x", fromId := "c", toId := "a" }
    createEdgeTx s6 "now" "g" { id := "bc", type := "x", fromId := "b", toId := "c" })

/-- Witness for C8 at a concrete store with a self-loop, an outgoing edge,
an incoming edge, and one edge not incident on the deleted node. -/
theorem delete_node_frame_witness :
    ∃ s', deleteNodeTxP c8Store "g" "a" = (none, s') ∧
      (∀ (e : EdgeRec) (ent : Entry), (encodeEdgeKey "g" e.id, ent) ∈ c8Store →
        ent.val = .edge e → (e.fromId = "a" ∨ e.toId = "a") →
        getEdgeSE s' "g" e.id = .error ("edge not found: " ++ e.id)) ∧
      (∀ m, m ≠ "a" →
        kvGetEntry s' (encodeNodeKey "g" m) = kvGetEntry c8Store (encodeNodeKey "g" m)) ∧
      (∀ (e : EdgeRec) (ent : Entry), (encodeEdgeKey "g" e.id, ent) ∈ c8Store →
        ent.val = .edge e → e.fromId ≠ "a" → e.toId ≠ "a" →
        kvGetEntry s' (encodeEdgeKey "g" e.id) = some ent) :=
  delete_node_frame c8Store "g" "a" { id := "a", type := "t" }
    (by decide) (by decide) (by decide) (by decide) (by decide) (by decide)

/-! ## C6 — cycle detection and deduplication -/

theorem eraseDups_loop_mem {α : Type} [DecidableEq α] (x : α) :
    ∀ (l acc : List α), x ∈ List.eraseDups.loop l acc ↔ x ∈ l ∨ x ∈ acc := by
  intro l
  induction l with
  | nil =>
    intro acc
    rw [List.eraseDups.loop]
    simp
  | cons a l ih =>
    intro acc
    rw [List.eraseDups.loop, List.elem_eq_mem a acc]
    by_cases ha : a ∈ acc
    · simp only [ha, decide_True, ih]
      constructor
      · rintro (h | h)
        · exact Or.inl (List.mem_cons_of_mem _ h)
        · exact Or.inr h
      · rintro (h | h)
        · rcases List.mem_cons.mp h with rfl | h
          · exact Or.inr ha
          · exact Or.inl h
        · exact Or.inr h
    · simp only [ha, decide_False, ih]
      constructor
      · rintro (h | h)
        · exact Or.inl (List.mem_cons_of_mem _ h)
        · rcases List.mem_cons.mp h with rfl | h
          · exact Or.inl (List.mem_cons_self _ _)
          · exact Or.inr h
      · rintro (h | h)
        · rcases List.mem_cons.mp h with rfl | h
          · exact Or.inr (List.mem_cons_self _ _)
          · exact Or.inl h
        · exact Or.inr (List.mem_cons_of_mem _ h)

theorem eraseDups_loop_nodup {α : Type} [DecidableEq α] :
    ∀ (l acc : List α), acc.Nodup → (List.eraseDups.loop l acc).Nodup := by
  intro l
  induction l with
  | nil =>
    intro acc hacc
    rw [List.eraseDups.loop]
    exact List.nodup_reverse.mpr hacc
  | cons a l ih =>
    intro acc hacc
    rw [List.eraseDups.loop, List.elem_eq_mem a acc]
    by_cases ha : a ∈ acc
    · simp only [ha, decide_True]
      exact ih acc hacc
    · simp only [ha, decide_False]
      exact ih (a :: acc) (List.nodup_cons.mpr ⟨ha, hacc⟩)

theorem mem_eraseDups {α : Type} [DecidableEq α] {x : α} {l : List α} :
    x ∈ l.eraseDups ↔ x ∈ l := by
  unfold List.eraseDups
  rw [eraseDups_loop_mem]
  simp

theorem nodup_eraseDups {α : Type} [DecidableEq α] (l : List α) :
    l.eraseDups.Nodup := by
  unfold List.eraseDups
  exact eraseDups_loop_nodup l [] List.nodup_nil

theorem getLastD_mem {α : Type} : ∀ (l : List α) (d : α), l ≠ [] → l.getLastD d ∈ l := by
  intro l
  induction l with
  | nil => intro d h; exact absurd rfl h
  | cons a l ih =>
    intro d _
    rw [List.getLastD_cons]
    cases l with
    | nil => simp [List.getLastD]
    | cons b l2 =>
      exact List.mem_cons_of_mem _ (ih a (by simp))

/-- What the Go map-based deduplication actually guarantees: every output
is the normalization of some raw cycle, outputs have pairwise distinct
`"->"`-joined strings (the map key), and the output is empty exactly when
the input is. -/
theorem dedupCycles_spec (cs : List (List String)) :
    (∀ c ∈ dedupCycles cs, ∃ c0 ∈ cs, c = normalizeCycle c0) ∧
    ((dedupCycles cs).map cycleToString).Nodup ∧
    (dedupCycles cs = [] ↔ cs = []) := by
  have hkey : ∀ k ∈ ((cs.map normalizeCycle).map cycleToString).eraseDups,
      cycleToString (((cs.map normalizeCycle).filter
        (fun c => cycleToString c = k)).getLastD []) = k := by
    intro k hk
    have hkmem : k ∈ (cs.map normalizeCycle).map cycleToString := mem_eraseDups.mp hk
    rcases List.mem_map.mp hkmem with ⟨c1, hc1, hk1⟩
    have hfil : c1 ∈ (cs.map normalizeCycle).filter (fun c => cycleToString c = k) :=
      List.mem_filter.mpr ⟨hc1, decide_eq_true hk1⟩
    have hmem := getLastD_mem _ [] (List.ne_nil_of_mem hfil)
    have := (List.mem_filter.mp hmem).2
    exact of_decide_eq_true this
  refine ⟨?_, ?_, ?_⟩
  · intro c hc
    unfold dedupCycles at hc
    rcases List.mem_map.mp hc with ⟨k, hk, rfl⟩
    have hkmem : k ∈ (cs.map normalizeCycle).map cycleToString := mem_eraseDups.mp hk
    rcases List.mem_map.mp hkmem with ⟨c1, hc1, hk1⟩
    have hfil : c1 ∈ (cs.map normalizeCycle).filter (fun c => cycleToString c = k) :=
      List.mem_filter.mpr ⟨hc1, decide_eq_true hk1⟩
    have hmem := getLastD_mem _ [] (List.ne_nil_of_mem hfil)
    have hmem2 := (List.mem_filter.mp hmem).1
    rcases List.mem_map.mp hmem2 with ⟨c0, hc0, hc0n⟩
    exact ⟨c0, hc0, hc0n.symm⟩
  · unfold dedupCycles
    rw [List.map_map]
    have heq : (((cs.map normalizeCycle).map cycleToString).eraseDups).map
        (cycleToString ∘ fun k => ((cs.map normalizeCycle).filter
          (fun c => cycleToString c = k)).getLastD [])
        = ((cs.map normalizeCycle).map cycleToString).eraseDups := by
      have h2 := List.map_congr_left (l := ((cs.map normalizeCycle).map cycleToString).eraseDups)
        (f := cycleToString ∘ fun k => ((cs.map normalizeCycle).filter
          (fun c => cycleToString c = k)).getLastD []) (g := id) hkey
      rw [h2, List.map_id]
    rw [heq]
    exact nodup_eraseDups _
  · constructor
    · intro h
      by_contra hcs
      obtain ⟨c, hc⟩ := List.exists_mem_of_ne_nil cs hcs
      have h1 : cycleToString (normalizeCycle c)
          ∈ (cs.map normalizeCycle).map cycleToString :=
        List.mem_map.mpr ⟨normalizeCycle c, List.mem_map.mpr ⟨c, hc, rfl⟩, rfl⟩
      have h2 := mem_eraseDups.mpr h1
      have h3 : dedupCycles cs ≠ [] := by
        unfold dedupCycles
        exact List.ne_nil_of_mem (List.mem_map.mpr ⟨_, h2, rfl⟩)
      exact h3 h
    · intro h
      subst h
      rfl

/-- The deduplication that C6 describes: compare the rotated node
sequences themselves. -/
def specDedupCycles (cs : List (List String)) : List (List String) :=
  (cs.map normalizeCycle).eraseDups

/-- Nodes `a`, `b`, `b->c`, `c` with the two distinct directed cycles
`a -> b -> c -> a` and `a -> b->c -> a`. -/
def c6v : StorageView := mkView
  [{ id := "a", type := "t" }, { id := "b", type := "t" },
   { id := "b->c", type := "t" }, { id := "c", type := "t" }]
  [{ id := "e1", type := "x", fromId := "a", toId := "b" },
   { id := "e2", type := "x", fromId := "b", toId := "c" },
   { id := "e3", type := "x", fromId := "c", toId := "a" },
   { id := "e4", type := "x", fromId := "a", toId := "b->c" },
   { id := "e5", type := "x", fromId := "b->c", toId := "a" }]

/-- C6: the graph has the two distinct directed cycles `a,b,c,a` and
`a,b->c,a` (already rotated to start at their smallest node ID), and both
appear among the normalized raw cycles; deduplication by comparing the
rotated sequences keeps both, but FindAllCycles keys its map by the
`"->"`-joined string, conflates them into the single key `a->b->c->a`,
and returns only one cycle. -/
theorem find_all_cycles_dedup_conflates :
    ["a", "b", "c", "a"] ∈ (rawCycles c6v []).map normalizeCycle ∧
    ["a", "b->c", "a"] ∈ (rawCycles c6v []).map normalizeCycle ∧
    specDedupCycles (rawCycles c6v [])
      = [["a", "b", "c", "a"], ["a", "b->c", "a"]] ∧
    findAllCycles c6v [] = [["a", "b", "c", "a"]] ∧
    ["a", "b->c", "a"] ∉ findAllCycles c6v [] := by
  refine ⟨by decide, by decide, by decide, by decide, by decide⟩

/-- One step of the (edge-type-filtered) successor relation the cycle
search walks: some filtered outgoing edge of `a` points at `b`. -/
def edgeStep (v : StorageView) (ets : List String) (a b : String) : Prop :=
  ∃ e ∈ filterEdgesByTypes ets (v.outgoing a), e.toId = b

/-- A directed path: edges lead from `a` through the nodes of `ws` in
order and finally into `b`.  `pathChain v ets a [] b` is a single edge;
`pathChain v ets a ws a` with nonempty-or-empty `ws` is a directed cycle
through `a`. -/
def pathChain (v : StorageView) (ets : List String) : String → List String → String → Prop
  | a, [], b => edgeStep v ets a b
  | a, w :: ws, b => edgeStep v ets a w ∧ pathChain v ets w ws b

theorem pathChain_append (v : StorageView) (ets : List String) (w y : String) :
    ∀ (u : List String) (a : String) (vt : List String),
    pathChain v ets a (u ++ w :: vt) y ↔
      pathChain v ets a u w ∧ pathChain v ets w vt y := by
  intro u
  induction u with
  | nil => intro a vt; simp [pathChain]
  | cons x u ih =>
    intro a vt
    simp only [List.cons_append, pathChain, List.append_eq, ih, and_assoc]

theorem exists_first_dup {α : Type} [DecidableEq α] :
    ∀ (l : List α), ¬ l.Nodup → ∃ u w vt, l = u ++ w :: vt ∧ w ∈ vt := by
  intro l
  induction l with
  | nil => intro h; exact absurd List.nodup_nil h
  | cons a l ih =>
    intro h
    by_cases ha : a ∈ l
    · exact ⟨[], a, l, rfl, ha⟩
    · have hl : ¬ l.Nodup := fun hn => h (List.nodup_cons.mpr ⟨ha, hn⟩)
      obtain ⟨u, w, vt, rfl, hw⟩ := ih hl
      exact ⟨a :: u, w, vt, rfl, hw⟩

/-- Every directed cycle contains a simple one. -/
theorem exists_simple_cycle (v : StorageView) (ets : List String) :
    ∀ (N : Nat) (a : String) (ws : List String), ws.length ≤ N →
    pathChain v ets a ws a →
    ∃ b ws2, pathChain v ets b ws2 b ∧ ws2.Nodup ∧ b ∉ ws2 := by
  intro N
  induction N with
  | zero =>
    intro a ws hlen hch
    have hnil : ws = [] := List.length_eq_zero.mp (Nat.le_zero.mp hlen)
    subst hnil
    exact ⟨a, [], hch, List.nodup_nil, List.not_mem_nil a⟩
  | succ N ih =>
    intro a ws hlen hch
    by_cases ha : a ∈ ws
    · obtain ⟨u, vt, rfl⟩ := List.append_of_mem ha
      have h2 := ((pathChain_append v ets a a u a vt).mp hch).2
      refine ih a vt ?_ h2
      simp only [List.length_append, List.length_cons] at hlen
      omega
    · by_cases hnd : ws.Nodup
      · exact ⟨a, ws, hch, hnd, ha⟩
      · obtain ⟨u, w, vt, rfl, hw⟩ := exists_first_dup ws hnd
        obtain ⟨v1, v2, rfl⟩ := List.append_of_mem hw
        have h1 := (pathChain_append v ets w a u a (v1 ++ w :: v2)).mp hch
        have h2 := (pathChain_append v ets w a v1 w v2).mp h1.2
        refine ih a (u ++ w :: v2) ?_
          ((pathChain_append v ets w a u a v2).mpr ⟨h1.1, h2.2⟩)
        simp only [List.length_append, List.length_cons] at hlen ⊢
        omega

theorem mem_filterEdgesByTypes {ets : List String} {es : List EdgeRec} {e : EdgeRec}
    (h : e ∈ filterEdgesByTypes ets es) : e ∈ es := by
  unfold filterEdgesByTypes at h
  split at h
  · exact h
  · exact (List.mem_filter.mp h).1

theorem flatMap_ne_nil_of_mem {α β : Type} {l : List α} {f : α → List β} {x : α}
    (hx : x ∈ l) (hf : f x ≠ []) : l.flatMap f ≠ [] := by
  obtain ⟨y, hy⟩ := List.exists_mem_of_ne_nil (f x) hf
  exact List.ne_nil_of_mem (List.mem_flatMap.mpr ⟨x, hx, hy⟩)

/-- Every result of findCyclesRecursive extends the running path by a
chain of filtered edges from the current node back to the start. -/
theorem findCyclesRec_sound (v : StorageView) (ets : List String) (start : String) :
    ∀ (fuel : Nat) (current : String) (path blocked : List String) (c : List String),
    c ∈ findCyclesRec v ets start fuel current path blocked →
    ∃ ws, c = path ++ ws ++ [start] ∧ pathChain v ets current ws start := by
  intro fuel
  induction fuel with
  | zero =>
    intro current path blocked c hc
    simp [findCyclesRec] at hc
  | succ fuel ih =>
    intro current path blocked c hc
    simp only [findCyclesRec] at hc
    rcases List.mem_flatMap.mp hc with ⟨e, he, hce⟩
    by_cases hns : e.toId = start
    · rw [if_pos hns] at hce
      have hcp : c = path ++ [start] := List.mem_singleton.mp hce
      refine ⟨[], by simpa using hcp, ?_⟩
      exact ⟨e, he, hns⟩
    · rw [if_neg hns] at hce
      by_cases hb : (current :: blocked).contains e.toId = true
      · rw [if_pos hb] at hce
        simp at hce
      · rw [if_neg hb] at hce
        obtain ⟨ws2, hc2, hch2⟩ := ih e.toId (path ++ [e.toId]) (current :: blocked) c hce
        refine ⟨e.toId :: ws2, ?_, ⟨e, he, rfl⟩, hch2⟩
        rw [hc2]
        simp

/-- findCyclesRecursive finds a cycle whenever a simple chain of unblocked
nodes leads from the current node back to the start and enough fuel
remains. -/
theorem findCyclesRec_complete (v : StorageView) (ets : List String) (start : String) :
    ∀ (ws : List String) (fuel : Nat) (current : String) (path blocked : List String),
    pathChain v ets current ws start → ws.Nodup → start ∉ ws → current ∉ ws →
    (∀ b ∈ blocked, b ∉ ws) → ws.length + 1 ≤ fuel →
    findCyclesRec v ets start fuel current path blocked ≠ [] := by
  intro ws
  induction ws with
  | nil =>
    intro fuel current path blocked hch _ _ _ _ hfuel
    cases fuel with
    | zero => omega
    | succ fuel =>
      simp only [findCyclesRec]
      obtain ⟨e, he, hto⟩ := hch
      refine flatMap_ne_nil_of_mem he ?_
      rw [if_pos hto]
      simp
  | cons w ws ih =>
    intro fuel current path blocked hch hnd hstart hcur hblocked hfuel
    cases fuel with
    | zero => simp at hfuel
    | succ fuel =>
      simp only [findCyclesRec]
      obtain ⟨⟨e, he, hto⟩, hch2⟩ := hch
      refine flatMap_ne_nil_of_mem he ?_
      have hwstart : ¬ (e.toId = start) := by
        rw [hto]
        intro h
        exact hstart (h ▸ List.mem_cons_self w ws)
      rw [if_neg hwstart]
      have hbcon : ¬ ((current :: blocked).contains e.toId = true) := by
        rw [hto]
        intro hcont
        have hmem : w ∈ current :: blocked := by simpa using hcont
        rcases List.mem_cons.mp hmem with h | h
        · exact hcur (h ▸ List.mem_cons_self w ws)
        · exact hblocked w h (List.mem_cons_self w ws)
      rw [if_neg hbcon]
      rw [hto]
      refine ih fuel w (path ++ [w]) (current :: blocked) hch2
        (List.nodup_cons.mp hnd).2 ?_ ?_ ?_ ?_
      · exact fun h => hstart (List.mem_cons_of_mem _ h)
      · exact (List.nodup_cons.mp hnd).1
      · intro b hb
        rcases List.mem_cons.mp hb with rfl | hbm
        · exact fun h => hcur (List.mem_cons_of_mem _ h)
        · exact fun h => hblocked b hbm (List.mem_cons_of_mem _ h)
      · simp only [List.length_cons] at hfuel
        omega

theorem pathChain_mem_step (v : StorageView) (ets : List String) :
    ∀ (ws : List String) (a b : String), pathChain v ets a ws b →
    ∀ x ∈ ws, ∃ y, edgeStep v ets y x := by
  intro ws
  induction ws with
  | nil => intro a b _ x hx; cases hx
  | cons w ws ih =>
    intro a b hch x hx
    rcases List.mem_cons.mp hx with rfl | hx2
    · exact ⟨a, hch.1⟩
    · exact ih w b hch.2 x hx2

theorem mkView_WF (nodes : List NodeRec) (edges : List EdgeRec)
    (h : ∀ e ∈ edges, e.fromId ∈ nodes.map (fun nd => nd.id) ∧
        e.toId ∈ nodes.map (fun nd => nd.id)) :
    ∀ n : String, ∀ e ∈ (mkView nodes edges).outgoing n, e.fromId = n ∧
      e.fromId ∈ (mkView nodes edges).nodesList.map (fun nd => nd.id) ∧
      e.toId ∈ (mkView nodes edges).nodesList.map (fun nd => nd.id) := by
  intro n e he
  simp only [mkView, sortByKey] at he
  have hef : e ∈ edges.filter (fun e2 => e2.fromId = n) :=
    (List.perm_insertionSort (fun a b : EdgeRec => !strLt b.id a.id)
      (edges.filter (fun e2 => e2.fromId = n))).mem_iff.mp he
  obtain ⟨hemem, hfr⟩ := List.mem_filter.mp hef
  have hfr2 : e.fromId = n := of_decide_eq_true hfr
  have hnode := h e hemem
  have hpermn := List.perm_insertionSort (fun a b : NodeRec => !strLt b.id a.id) nodes
  refine ⟨hfr2, ?_, ?_⟩
  · simp only [mkView, sortByKey]
    exact ((hpermn.map (fun nd => nd.id)).mem_iff).mpr hnode.1
  · simp only [mkView, sortByKey]
    exact ((hpermn.map (fun nd => nd.id)).mem_iff).mpr hnode.2

/-- C6 (amended): under the storage invariants — outgoing edges of `n`
start at `n` and join listed nodes, and node IDs are unique — `has_cycles`
is `true` iff the edge-type-filtered graph contains a directed cycle, and
equivalently `find_all_cycles` returns a nonempty list; every returned
cycle is the rotation of a found cycle putting its lexicographically
smallest node ID first, but deduplication compares the `"->"`-joined
strings of those rotations rather than the rotated sequences, so what is
guaranteed is that the returned cycles have pairwise distinct joined
strings. -/
theorem has_cycles_iff (v : StorageView) (ets : List String)
    (hWF : ∀ n : String, ∀ e ∈ v.outgoing n, e.fromId = n ∧
      e.fromId ∈ v.nodesList.map (fun nd => nd.id) ∧
      e.toId ∈ v.nodesList.map (fun nd => nd.id)) :
    (hasCycles v ets = true ↔ ∃ a ws, pathChain v ets a ws a) ∧
    (findAllCycles v ets ≠ [] ↔ ∃ a ws, pathChain v ets a ws a) ∧
    (∀ c ∈ findAllCycles v ets, ∃ c0 ∈ rawCycles v ets, c = normalizeCycle c0) ∧
    ((findAllCycles v ets).map cycleToString).Nodup := by
  obtain ⟨hd1, hd2, hd3⟩ := dedupCycles_spec (rawCycles v ets)
  have hmain : findAllCycles v ets ≠ [] ↔ ∃ a ws, pathChain v ets a ws a := by
    constructor
    · intro hne
      have hraw : rawCycles v ets ≠ [] := fun h => hne (hd3.mpr h)
      obtain ⟨c, hc⟩ := List.exists_mem_of_ne_nil _ hraw
      simp only [rawCycles] at hc
      rcases List.mem_flatMap.mp hc with ⟨nd, hnd, hcnd⟩
      rcases List.mem_append.mp hcnd with h | h
      · obtain ⟨ws, _, hch⟩ := findCyclesRec_sound v ets nd.id _ nd.id [nd.id] [] c h
        exact ⟨nd.id, ws, hch⟩
      · obtain ⟨ws, _, hch⟩ := findCyclesRec_sound v ets nd.id _ nd.id [nd.id] [] c h
        exact ⟨nd.id, ws, hch⟩
    · rintro ⟨a, ws, hch⟩
      obtain ⟨b, ws2, hch2, hnd2, hb⟩ :=
        exists_simple_cycle v ets ws.length a ws le_rfl hch
      have hbid : b ∈ v.nodesList.map (fun nd => nd.id) := by
        have hedge : ∃ e, e ∈ filterEdgesByTypes ets (v.outgoing b) := by
          cases hws2 : ws2 with
          | nil =>
            rw [hws2] at hch2
            obtain ⟨e, he, _⟩ := hch2
            exact ⟨e, he⟩
          | cons w ws3 =>
            rw [hws2] at hch2
            obtain ⟨⟨e, he, _⟩, _⟩ := hch2
            exact ⟨e, he⟩
        obtain ⟨e, he⟩ := hedge
        obtain ⟨hfrom, hfmem, _⟩ := hWF b e (mem_filterEdgesByTypes he)
        rw [← hfrom]
        exact hfmem
      rcases List.mem_map.mp hbid with ⟨nd, hnd, hndid⟩
      subst hndid
      have hsub : ∀ x ∈ ws2, x ∈ v.nodesList.map (fun nd => nd.id) := by
        intro x hx
        obtain ⟨y, e, he, hto⟩ := pathChain_mem_step v ets ws2 nd.id nd.id hch2 x hx
        obtain ⟨_, _, htmem⟩ := hWF y e (mem_filterEdgesByTypes he)
        rw [← hto]
        exact htmem
      have hlen : ws2.length ≤ v.nodesList.length := by
        have hsp := List.subperm_of_subset hnd2 hsub
        have := hsp.length_le
        simpa using this
      have hcs := findCyclesRec_complete v ets nd.id ws2 (v.nodesList.length + 1)
        nd.id [nd.id] [] hch2 hnd2 hb hb (by intro b2 hb2; cases hb2) (by omega)
      have hrawne : rawCycles v ets ≠ [] := by
        simp only [rawCycles]
        refine flatMap_ne_nil_of_mem hnd ?_
        intro happ
        rcases List.append_eq_nil.mp happ with ⟨h1, _⟩
        exact hcs h1
      intro hfa
      exact hrawne (hd3.mp hfa)
  have hhc : hasCycles v ets = true ↔ findAllCycles v ets ≠ [] := by
    simp [hasCycles, List.length_pos]
  exact ⟨hhc.trans hmain, hmain, hd1, hd2⟩

/-- Graph with the two-node cycle `a -> b -> a`. -/
def c6w : StorageView := mkView
  [{ id := "a", type := "t" }, { id := "b", type := "t" }]
  [{ id := "ab", type := "x", fromId := "a", toId := "b" },
   { id := "ba", type := "x", fromId := "b", toId := "a" }]

/-- Witness for the amended C6 on a two-node cyclic graph. -/
theorem has_cycles_iff_witness :
    (hasCycles c6w [] = true ↔ ∃ a ws, pathChain c6w [] a ws a) ∧
    (findAllCycles c6w [] ≠ [] ↔ ∃ a ws, pathChain c6w [] a ws a) ∧
    (∀ c ∈ findAllCycles c6w [], ∃ c0 ∈ rawCycles c6w [], c = normalizeCycle c0) ∧
    ((findAllCycles c6w []).map cycleToString).Nodup :=
  has_cycles_iff c6w [] (mkView_WF _ _ (by decide))

/-! ## C10 — adjacency and type-index reads skip dangling entries -/

theorem getEdgeS_some_iff (s : Store) (g id : String) (e : EdgeRec) :
    getEdgeS s g id = some e ↔ kvGet s (encodeEdgeKey g id) = some (.edge e) := by
  unfold getEdgeS getEdgeSE
  cases kvGet s (encodeEdgeKey g id) with
  | none => simp [Except.toOption]
  | some v => cases v <;> simp [Except.toOption]

theorem collect_foldl (s : Store) (g : String) (l : List (String × Entry))
    (acc : List EdgeRec) :
    (l.foldl (fun acc kv =>
        match getEdgeS s g (valStr kv.2.val) with
        | some e => acc ++ [e]
        | none => acc) acc)
      = acc ++ l.flatMap (fun kv => (getEdgeS s g (valStr kv.2.val)).toList) := by
  induction l generalizing acc with
  | nil => simp
  | cons kv l ih =>
    simp only [List.foldl_cons, List.flatMap_cons]
    cases hg : getEdgeS s g (valStr kv.2.val) with
    | some e => rw [ih]; simp [Option.toList]
    | none => rw [ih]; simp [Option.toList]

/-- C10: `get_outgoing`, `get_incoming`, and `list_edges_by_type` never
fail; every edge they return is present as a stored record (no phantoms),
and every index entry whose record is present contributes its edge, while
dangling entries — as arise after an edge's KV-level TTL removes the
record that `create_edge` stored with a TTL while writing its type-index
and adjacency entries without one — are silently skipped. -/
theorem adjacency_reads_skip_dangling (s : Store) (now g n t ts : String)
    (e : EdgeRec) (nf nt : NodeRec)
    (hf : getNodeSE s g e.fromId = .ok nf) (ht : getNodeSE s g e.toId = .ok nt)
    (hexp : e.expiresAt = some ts) (hfut : strLt now ts = true) :
    (∃ l, getOutgoingEdgesS s g n = .ok l ∧
      (∀ e2 ∈ l, ∃ id, kvGet s (encodeEdgeKey g id) = some (.edge e2)) ∧
      (∀ kv ∈ kvEntriesUnder s (outPref g n), ∀ e2,
        getEdgeS s g (valStr kv.2.val) = some e2 → e2 ∈ l)) ∧
    (∃ l, getIncomingEdgesS s g n = .ok l ∧
      (∀ e2 ∈ l, ∃ id, kvGet s (encodeEdgeKey g id) = some (.edge e2)) ∧
      (∀ kv ∈ kvEntriesUnder s (inPref g n), ∀ e2,
        getEdgeS s g (valStr kv.2.val) = some e2 → e2 ∈ l)) ∧
    (∃ l, listEdgesByTypeS s g t = .ok l ∧
      (∀ e2 ∈ l, ∃ id, kvGet s (encodeEdgeKey g id) = some (.edge e2)) ∧
      (∀ kv ∈ kvEntriesUnder s (createTypeIterPref g "e" t), ∀ e2,
        getEdgeS s g (valStr kv.2.val) = some e2 → e2 ∈ l)) ∧
    (∃ s', createEdgeTx s now g e = .ok s' ∧
      kvGetEntry s' (encodeEdgeKey g e.id) = some ⟨.edge e, some ts⟩ ∧
      kvGetEntry s' (encodeEdgeTypeIndexKey g e.type e.id) = some ⟨.str e.id, none⟩ ∧
      kvGetEntry s' (encodeNodeOutEdgeIndexKey g e.fromId e.id) = some ⟨.str e.id, none⟩ ∧
      kvGetEntry s' (encodeNodeInEdgeIndexKey g e.toId e.id) = some ⟨.str e.id, none⟩) := by
  have part : ∀ p : String,
      (∃ l, (Except.ok ((kvEntriesUnder s p).foldl (fun acc kv =>
          match getEdgeS s g (valStr kv.2.val) with
          | some e => acc ++ [e]
          | none => acc) []) : Except String (List EdgeRec)) = .ok l ∧
        (∀ e2 ∈ l, ∃ id, kvGet s (encodeEdgeKey g id) = some (.edge e2)) ∧
        (∀ kv ∈ kvEntriesUnder s p, ∀ e2,
          getEdgeS s g (valStr kv.2.val) = some e2 → e2 ∈ l)) := by
    intro p
    refine ⟨_, rfl, ?_, ?_⟩
    · intro e2 he2
      rw [collect_foldl, List.nil_append] at he2
      rcases List.mem_flatMap.mp he2 with ⟨kv, _, hkv2⟩
      rcases Option.mem_toList.mp hkv2 with hg2
      exact ⟨valStr kv.2.val, (getEdgeS_some_iff s g _ e2).mp hg2⟩
    · intro kv hkv e2 hg2
      rw [collect_foldl, List.nil_append]
      exact List.mem_flatMap.mpr ⟨kv, hkv, Option.mem_toList.mpr hg2⟩
  refine ⟨part (outPref g n), part (inPref g n), part (createTypeIterPref g "e" t), ?_⟩
  refine ⟨kvSet (kvSet (kvSet (kvSet s (encodeEdgeKey g e.id) (.edge e) (some ts))
      (encodeEdgeTypeIndexKey g e.type e.id) (.str e.id))
      (encodeNodeOutEdgeIndexKey g e.fromId e.id) (.str e.id))
      (encodeNodeInEdgeIndexKey g e.toId e.id) (.str e.id),
    ?_, ?_, ?_, ?_, ?_⟩
  · simp [createEdgeTx, hf, ht, hexp, hfut]
  all_goals simp [kvGetEntry_kvSet, ne_edgeKey_inKey, ne_edgeKey_outKey,
    ne_edgeKey_edgeTypeKey, ne_edgeTypeKey_inKey, ne_edgeTypeKey_outKey,
    ne_outKey_inKey]

/-- Two nodes `a`, `b` of type `t` in graph `g`. -/
def c10Store : Store :=
  okStore (createNodeTx (okStore (createNodeTx [] "g" { id := "a", type := "t" }))
    "g" { id := "b", type := "t" })

/-- An edge `a -> b` with a future expiry. -/
def c10Edge : EdgeRec :=
  { id := "ab", type := "x", fromId := "a", toId := "b",
    expiresAt := some "2030-01-01T00:00:00Z" }

/-- Witness for C10 on a two-node store with one future-expiring edge. -/
theorem adjacency_reads_skip_dangling_witness :
    (∃ l, getOutgoingEdgesS c10Store "g" "a" = .ok l ∧
      (∀ e2 ∈ l, ∃ id, kvGet c10Store (encodeEdgeKey "g" id) = some (.edge e2)) ∧
      (∀ kv ∈ kvEntriesUnder c10Store (outPref "g" "a"), ∀ e2,
        getEdgeS c10Store "g" (valStr kv.2.val) = some e2 → e2 ∈ l)) ∧
    (∃ l, getIncomingEdgesS c10Store "g" "a" = .ok l ∧
      (∀ e2 ∈ l, ∃ id, kvGet c10Store (encodeEdgeKey "g" id) = some (.edge e2)) ∧
      (∀ kv ∈ kvEntriesUnder c10Store (inPref "g" "a"), ∀ e2,
        getEdgeS c10Store "g" (valStr kv.2.val) = some e2 → e2 ∈ l)) ∧
    (∃ l, listEdgesByTypeS c10Store "g" "x" = .ok l ∧
      (∀ e2 ∈ l, ∃ id, kvGet c10Store (encodeEdgeKey "g" id) = some (.edge e2)) ∧
      (∀ kv ∈ kvEntriesUnder c10Store (createTypeIterPref "g" "e" "x"), ∀ e2,
        getEdgeS c10Store "g" (valStr kv.2.val) = some e2 → e2 ∈ l)) ∧
    (∃ s', createEdgeTx c10Store "2020-01-01T00:00:00Z" "g" c10Edge = .ok s' ∧
      kvGetEntry s' (encodeEdgeKey "g" "ab") =
        some ⟨.edge c10Edge, some "2030-01-01T00:00:00Z"⟩ ∧
      kvGetEntry s' (encodeEdgeTypeIndexKey "g" "x" "ab") = some ⟨.str "ab", none⟩ ∧
      kvGetEntry s' (encodeNodeOutEdgeIndexKey "g" "a" "ab") = some ⟨.str "ab", none⟩ ∧
      kvGetEntry s' (encodeNodeInEdgeIndexKey "g" "b" "ab") = some ⟨.str "ab", none⟩) :=
  adjacency_reads_skip_dangling c10Store "2020-01-01T00:00:00Z" "g" "a" "x"
    "2030-01-01T00:00:00Z" c10Edge
    { id := "a", type := "t" } { id := "b", type := "t" }
    (by decide) (by decide) rfl (by decide)

end PathwayDB
